import Mathlib

/-
Verification of the schema-driven PDF-to-CSV extraction pipeline
(src/pdf_to_csv_processor.py) against its natural-language specification.

Modelling conventions:
* Python strings are modelled as Lean `String` at the interface and as
  `List Char` internally (all character-level operations are executable,
  so concrete runs reduce by `rfl`/`decide`).
* Python numbers (both `int` and `float`) are modelled exactly as
  unnormalized fractions `PyNum` (numerator/denominator).  Every numeric
  value produced by the pipeline is a decimal, hence exactly representable;
  Python's `==` on numbers is cross-multiplication equality `PyNum.numEq`.
* JSON values are modelled by the inductive type `JVal`; Python dicts are
  association lists in insertion order, as in CPython.
* Fallible Python code (code that can raise) is modelled with `Option`:
  `none` means an exception was raised at that point.
* `hash` is Python's per-process string hash; it is modelled as an explicit
  function parameter `h : String → Int` because CPython's string hash is
  seed-randomized and unspecified.
-/

namespace PdfCsv

/-- Exact unnormalized fraction modelling a Python `int` or `float` value
produced by the pipeline (all such values are finite decimals). -/
structure PyNum where
  num : Int
  den : Nat
deriving DecidableEq

/-- Python numeric equality (`==`) on modelled numbers: cross multiplication. -/
def PyNum.numEq (a b : PyNum) : Bool :=
  a.num * (b.den : Int) == b.num * (a.den : Int)

/-- An integer as a modelled Python number. -/
def PyNum.ofInt (n : Int) : PyNum := ⟨n, 1⟩

/-- JSON-shaped Python values: `None`, `bool`, numbers, `str`, `list`, `dict`
(dicts keep insertion order, as in CPython). -/
inductive JVal where
  | null
  | bool (b : Bool)
  | num (q : PyNum)
  | str (s : String)
  | arr (elems : List JVal)
  | obj (fields : List (String × JVal))

/-- A Python dict with string keys, in insertion order. -/
abbrev Dict := List (String × JVal)

/-- Python truthiness of a value (`if value:`). -/
def pyTruthy : JVal → Bool
  | JVal.null => false
  | JVal.bool b => b
  | JVal.num q => !(q.num == 0)
  | JVal.str s => !(s == "")
  | JVal.arr l => !l.isEmpty
  | JVal.obj f => !f.isEmpty

/- Python `==` between modelled values: numbers compare by numeric value,
lists elementwise, dicts by size plus key-by-key value comparison (CPython
dict equality; association lists here never carry duplicate keys when this
is used). -/
mutual

def pyEq : JVal → JVal → Bool
  | JVal.null, JVal.null => true
  | JVal.bool a, JVal.bool b => a == b
  | JVal.num a, JVal.num b => PyNum.numEq a b
  | JVal.str a, JVal.str b => a == b
  | JVal.arr a, JVal.arr b => pyEqList a b
  | JVal.obj a, JVal.obj b => a.length == b.length && pyEqSub a b
  | _, _ => false

def pyEqList : List JVal → List JVal → Bool
  | [], [] => true
  | x :: xs, y :: ys => pyEq x y && pyEqList xs ys
  | _, _ => false

def pyEqSub : List (String × JVal) → List (String × JVal) → Bool
  | [], _ => true
  | (k, v) :: rest, b =>
      (match b.lookup k with
       | some w => pyEq v w
       | none => false) && pyEqSub rest b

end

/-- Python `str.isdigit` restricted to the ASCII strings this pipeline sees:
true iff the string is nonempty and all characters are decimal digits. -/
def pyIsdigit (cs : List Char) : Bool :=
  !cs.isEmpty && cs.all Char.isDigit

/-- The guard of `clean_numeric_values`:
`value.replace(',', '').replace('-', '').replace('.', '').isdigit()`.
Sequentially deleting all occurrences of the three characters is a single
filter. -/
def numericGuard (s : String) : Bool :=
  pyIsdigit (s.data.filter (fun c => !(c == ',' || c == '-' || c == '.')))

/-- `value.replace(',', '')`: delete every comma. -/
def commaStrip (s : String) : List Char :=
  s.data.filter (fun c => !(c == ','))

/-- Split a character list at the first `'.'`: returns the prefix before it
and, when a dot exists, the remainder after it (Python-style). -/
def splitDot : List Char → List Char × Option (List Char)
  | [] => ([], none)
  | c :: rest =>
      if c == '.' then ([], some rest)
      else
        let p := splitDot rest
        (c :: p.1, p.2)

/-- Value of a digit string read in base 10 (`natVal [] = 0`). -/
def natVal (cs : List Char) : Nat :=
  cs.foldl (fun a c => 10 * a + (c.toNat - '0'.toNat)) 0

/-- Build a modelled float from a sign, an integer numerator and a
denominator. -/
def mkPyNum (neg : Bool) (n : Nat) (d : Nat) : PyNum :=
  ⟨if neg then -(n : Int) else (n : Int), d⟩

/-- Digits-and-dot part of the `float` model, after the optional leading
minus sign has been consumed. -/
def pyFloatBody (neg : Bool) (body : List Char) : Option PyNum :=
  if body.any (fun c => !(c.isDigit || c == '.')) then none
  else
    match splitDot body with
    | (i, none) => if i.isEmpty then none else some (mkPyNum neg (natVal i) 1)
    | (i, some f) =>
        if f.any (fun c => c == '.') then none
        else if i.isEmpty && f.isEmpty then none
        else some (mkPyNum neg (natVal i * 10 ^ f.length + natVal f) (10 ^ f.length))

/-- Model of Python `float(s)` on the strings reachable from
`clean_numeric_values`'s guard, whose characters are digits, `'-'` and `'.'`
(commas are deleted before the call).  Returns `none` when `float` raises
`ValueError` (misplaced sign, more than one dot, or no digits). Exponents,
`inf`/`nan`, `'+'` signs and surrounding whitespace cannot occur on this
domain and are not modelled. -/
def pyFloat (cs : List Char) : Option PyNum :=
  match cs with
  | [] => none
  | c :: rest => if c == '-' then pyFloatBody true rest else pyFloatBody false (c :: rest)

/- `GeminiProcessor.clean_numeric_values` (src/pdf_to_csv_processor.py,
lines 48-60), modelled on values: in a dict, every string value passing the
digit guard is replaced by `float(value.replace(',', ''))`; nested dicts and
lists are cleaned recursively; everything else is untouched.  `none` models
the `ValueError` that `float` raises on guard-passing non-numeric strings. -/
mutual

def clean_numeric_values : JVal → Option JVal
  | JVal.obj fields => (cleanFields fields).map JVal.obj
  | JVal.arr items => (cleanItems items).map JVal.arr
  | v => some v

def cleanFields : List (String × JVal) → Option (List (String × JVal))
  | [] => some []
  | (k, JVal.str s) :: rest =>
      if numericGuard s then
        match pyFloat (commaStrip s) with
        | none => none
        | some q => (cleanFields rest).map (fun r => (k, JVal.num q) :: r)
      else (cleanFields rest).map (fun r => (k, JVal.str s) :: r)
  | (k, JVal.obj f) :: rest => do
      let f' ← cleanFields f
      let r ← cleanFields rest
      pure ((k, JVal.obj f') :: r)
  | (k, JVal.arr l) :: rest => do
      let l' ← cleanItems l
      let r ← cleanFields rest
      pure ((k, JVal.arr l') :: r)
  | (k, v) :: rest => (cleanFields rest).map (fun r => (k, v) :: r)

def cleanItems : List JVal → Option (List JVal)
  | [] => some []
  | v :: rest => do
      let v' ← clean_numeric_values v
      let r ← cleanItems rest
      pure (v' :: r)

end

/-- Python dict assignment `d[k] = v`: replace the value in place if the key
exists (keeping its position), otherwise append the new pair. -/
def setKey (d : Dict) (k : String) (v : JVal) : Dict :=
  if d.any (fun p => p.1 == k) then
    d.map (fun p => if p.1 == k then (k, v) else p)
  else d ++ [(k, v)]

/-- The six Python whitespace characters stripped by `str.strip()`. -/
def pyIsSpace (c : Char) : Bool :=
  c == ' ' || c == '\t' || c == '\n' || c == '\r' || c == Char.ofNat 11 || c == Char.ofNat 12

/-- Python `str.strip()`: drop whitespace from both ends. -/
def pyStrip (cs : List Char) : List Char :=
  ((cs.dropWhile pyIsSpace).reverse.dropWhile pyIsSpace).reverse

/-- JSON whitespace accepted between tokens by `json.loads`. -/
def jsonWs (c : Char) : Bool :=
  c == ' ' || c == '\t' || c == '\n' || c == '\r'

/-- Decode one JSON string escape character; `none` models the decode error
`json.loads` raises on an invalid escape (`\uXXXX` escapes do not occur in
this pipeline's data and are not modelled). -/
def escChar (e : Char) : Option Char :=
  if e == '"' then some '"'
  else if e == '\\' then some '\\'
  else if e == '/' then some '/'
  else if e == 'n' then some '\n'
  else if e == 't' then some '\t'
  else if e == 'r' then some '\r'
  else if e == 'b' then some (Char.ofNat 8)
  else if e == 'f' then some (Char.ofNat 12)
  else none

/-- Parse the body of a JSON string after the opening quote; returns the
decoded characters and the remainder after the closing quote. -/
def parseStringBody : List Char → Option (List Char × List Char)
  | [] => none
  | c :: rest =>
      if c == '"' then some ([], rest)
      else if c == '\\' then
        match rest with
        | [] => none
        | e :: rest2 =>
            (escChar e).bind (fun ce =>
              (parseStringBody rest2).map (fun p => (ce :: p.1, p.2)))
      else (parseStringBody rest).map (fun p => (c :: p.1, p.2))

/-- Longest leading run of decimal digits and the remainder. -/
def takeDigits (cs : List Char) : List Char × List Char :=
  (cs.takeWhile Char.isDigit, cs.dropWhile Char.isDigit)

/-- Scale a modelled number by `10 ^ e`, with the sign of the exponent. -/
def applyExp (q : PyNum) (negExp : Bool) (e : Nat) : PyNum :=
  if negExp then ⟨q.num, q.den * 10 ^ e⟩ else ⟨q.num * 10 ^ e, q.den⟩

/-- Parse an optional JSON exponent suffix after a number whose integer and
fraction digits are already known, yielding the value and the remainder. -/
def parseExpPart (neg : Bool) (ipart fpart : List Char) (cs : List Char) :
    Option (PyNum × List Char) :=
  let base := mkPyNum neg (natVal ipart * 10 ^ fpart.length + natVal fpart) (10 ^ fpart.length)
  match cs with
  | c :: rest =>
      if c == 'e' || c == 'E' then
        let es := match rest with
          | s :: r => if s == '+' then (false, r) else if s == '-' then (true, r) else (false, rest)
          | [] => (false, ([] : List Char))
        let ed := takeDigits es.2
        if ed.1.isEmpty then none
        else some (applyExp base es.1 (natVal ed.1), ed.2)
      else some (base, cs)
  | [] => some (base, [])

/-- Parse a JSON number (strict grammar: optional minus, `0` or a nonzero
leading digit, optional fraction, optional exponent). -/
def parseNumber (cs : List Char) : Option (PyNum × List Char) :=
  let sp := match cs with
    | c :: rest => if c == '-' then (true, rest) else (false, cs)
    | [] => (false, ([] : List Char))
  match sp.2 with
  | [] => none
  | c :: _ =>
      if !c.isDigit then none
      else
        let ip := takeDigits sp.2
        if c == '0' && ip.1.length != 1 then none
        else
          match ip.2 with
          | '.' :: r2 =>
              let fp := takeDigits r2
              if fp.1.isEmpty then none
              else parseExpPart sp.1 ip.1 fp.1 fp.2
          | r1 => parseExpPart sp.1 ip.1 [] r1

/-- Insert parsed object members into a dict the way CPython builds it:
later duplicate keys overwrite in place. -/
def dedupPairs (pairs : List (String × JVal)) : Dict :=
  pairs.foldl (fun d p => setKey d p.1 p.2) []

/- Recursive-descent JSON parser modelling `json.loads`, with explicit fuel
(any fuel of at least the input length suffices).  Returns the parsed value
and the unconsumed remainder. -/
mutual

def parseVal : Nat → List Char → Option (JVal × List Char)
  | 0, _ => none
  | fuel + 1, cs =>
      match cs.dropWhile jsonWs with
      | 'n' :: 'u' :: 'l' :: 'l' :: r => some (JVal.null, r)
      | 't' :: 'r' :: 'u' :: 'e' :: r => some (JVal.bool true, r)
      | 'f' :: 'a' :: 'l' :: 's' :: 'e' :: r => some (JVal.bool false, r)
      | '"' :: r => (parseStringBody r).map (fun p => (JVal.str (String.mk p.1), p.2))
      | '{' :: r =>
          (match r.dropWhile jsonWs with
           | '}' :: r2 => some (JVal.obj [], r2)
           | _ => (parseMembers fuel r).map (fun p => (JVal.obj (dedupPairs p.1), p.2)))
      | '[' :: r =>
          (match r.dropWhile jsonWs with
           | ']' :: r2 => some (JVal.arr [], r2)
           | _ => (parseElems fuel r).map (fun p => (JVal.arr p.1, p.2)))
      | l => (parseNumber l).map (fun p => (JVal.num p.1, p.2))

def parseMembers : Nat → List Char → Option (List (String × JVal) × List Char)
  | 0, _ => none
  | fuel + 1, cs =>
      match cs.dropWhile jsonWs with
      | '"' :: r =>
          (match parseStringBody r with
           | none => none
           | some (key, r1) =>
               match r1.dropWhile jsonWs with
               | ':' :: r2 =>
                   (match parseVal fuel r2 with
                    | none => none
                    | some (v, r3) =>
                        match r3.dropWhile jsonWs with
                        | ',' :: r4 =>
                            (parseMembers fuel r4).map
                              (fun p => ((String.mk key, v) :: p.1, p.2))
                        | '}' :: r4 => some ([(String.mk key, v)], r4)
                        | _ => none)
               | _ => none)
      | _ => none

def parseElems : Nat → List Char → Option (List JVal × List Char)
  | 0, _ => none
  | fuel + 1, cs =>
      match parseVal fuel cs with
      | none => none
      | some (v, r1) =>
          match r1.dropWhile jsonWs with
          | ',' :: r2 => (parseElems fuel r2).map (fun p => (v :: p.1, p.2))
          | ']' :: r2 => some ([v], r2)
          | _ => none

end

/-- Model of Python `json.loads`: parse one JSON value and require only
whitespace to remain.  `none` models `json.JSONDecodeError`. -/
def json_loads (s : String) : Option JVal :=
  match parseVal (s.data.length + 1) s.data with
  | some (v, rest) => if (rest.dropWhile jsonWs).isEmpty then some v else none
  | none => none

/-- Python `text.split(sep)` for a nonempty separator sequence, with fuel
(any fuel of at least the input length suffices). -/
def splitOnSeq (sep : List Char) : Nat → List Char → List (List Char)
  | 0, cs => [cs]
  | fuel + 1, cs =>
      if sep.isPrefixOf cs then [] :: splitOnSeq sep fuel (cs.drop sep.length)
      else
        match cs with
        | [] => [[]]
        | c :: rest =>
            match splitOnSeq sep fuel rest with
            | [] => [[c]]
            | h :: t => (c :: h) :: t

/-- A backtick (written by code point to keep it out of the source text). -/
def fenceChar : Char := Char.ofNat 96

/-- The Markdown-fence cleanup of `GeminiProcessor.get_table_data`
(src/pdf_to_csv_processor.py, lines 172-179): strip the text; if it starts
with a triple-backtick fence, keep the text between the first two fences,
drop a leading `json` tag (case-insensitively), and strip again. -/
def clean_markdown (s : String) : String :=
  let cs := pyStrip s.data
  let fence := [fenceChar, fenceChar, fenceChar]
  if fence.isPrefixOf cs then
    let part := ((splitOnSeq fence (cs.length + 1) cs).get? 1).getD []
    let part2 := if ((part.take 4).map Char.toLower) == "json".data then part.drop 4 else part
    String.mk (pyStrip part2)
  else String.mk cs

/-- The tables for which `get_table_data` defines a prompt
(src/pdf_to_csv_processor.py, lines 111-159). -/
def prompt_tables : List String := ["company_info", "shareholding_pattern"]

/-- `GeminiProcessor.get_table_data` (src/pdf_to_csv_processor.py, lines
161-193), as a function of the table name and of the raw model response
text.  Faithful control flow: an unknown table raises `ValueError`, caught
by the outer handler (`none`); when the direct `json.loads` succeeds the
source assigns `data` but has no `return` statement on that path, so the
function falls through and returns `None`; only the fence-stripped retry
path cleans the rows and returns `data["rows"]`; any exception while
cleaning or indexing (`none` here) is caught by the outer handler. -/
def get_table_data (table_name : String) (responseText : String) : Option JVal :=
  if !(prompt_tables.contains table_name) then none
  else
    match json_loads responseText with
    | some _ => none
    | none =>
        match json_loads (clean_markdown responseText) with
        | none => none
        | some (JVal.obj fields) =>
            (match fields.lookup "rows" with
             | none => none
             | some (JVal.arr rows) => (cleanItems rows).map JVal.arr
             | some (JVal.str s) => some (JVal.str s)
             | some (JVal.obj o) => some (JVal.obj o)
             | some _ => none)
        | some _ => none

/-- Abstract textual rendering of a modelled number.  Python's `str()`
formatting of ints and floats is not modelled; no claim depends on the
textual form of numeric fields. -/
def numRender (q : PyNum) : String :=
  toString q.num ++ "/" ++ toString q.den

/-- An ASCII apostrophe (kept out of the source text as a code point). -/
def aposStr : String := String.mk [Char.ofNat 39]

/- Model of Python `str()`.  Scalars are rendered exactly (except numbers,
see `numRender`); containers are rendered repr-style, approximately.  Only
the scalar cases are reachable from any claim. -/
mutual

def pyStr : JVal → String
  | JVal.null => "None"
  | JVal.bool true => "True"
  | JVal.bool false => "False"
  | JVal.num q => numRender q
  | JVal.str s => s
  | JVal.arr l => "[" ++ pyReprList l ++ "]"
  | JVal.obj f => "\x7b" ++ pyReprFields f ++ "\x7d"

def pyRepr : JVal → String
  | JVal.str s => aposStr ++ s ++ aposStr
  | v => pyStr v

def pyReprList : List JVal → String
  | [] => ""
  | [x] => pyRepr x
  | x :: xs => pyRepr x ++ ", " ++ pyReprList xs

def pyReprFields : List (String × JVal) → String
  | [] => ""
  | [(k, v)] => aposStr ++ k ++ aposStr ++ ": " ++ pyRepr v
  | (k, v) :: xs => aposStr ++ k ++ aposStr ++ ": " ++ pyRepr v ++ ", " ++ pyReprFields xs

end

/-- Python `len()` on a modelled value; `none` models the `TypeError` raised
on values without a length. -/
def pyLen : JVal → Option Nat
  | JVal.str s => some s.length
  | JVal.arr l => some l.length
  | JVal.obj f => some f.length
  | _ => none

/-- Tail of Python `max(candidates, key=len)`: keep the current best and
replace it only on a strictly greater length, so the first maximal element
wins; `none` models the `TypeError` when some element has no length. -/
def pyMaxGo (best : JVal) (bn : Nat) : List JVal → Option JVal
  | [] => some best
  | x :: xs =>
      match pyLen x with
      | none => none
      | some n => if bn < n then pyMaxGo x n xs else pyMaxGo best bn xs

/-- Python `max(candidates, key=len)`; `none` models the exception on an
empty list or on an element without a length. -/
def pyMaxByLen : List JVal → Option JVal
  | [] => none
  | x :: xs =>
      match pyLen x with
      | none => none
      | some n => pyMaxGo x n xs

/-- `s.split('\n')[0]`: the first line of a string. -/
def firstLine (s : String) : String :=
  String.mk (s.data.takeWhile (fun c => !(c == '\n')))

/-- The topic expression of `clean_management_discussion`
(`md.get('topic', '').split('\n')[0] if md.get('topic') else ''`):
a missing or falsy topic becomes `''`; a truthy string keeps its first line;
`.split` on a truthy non-string raises (`none`). -/
def topicOf (t : Option JVal) : Option JVal :=
  match t with
  | some v =>
      if pyTruthy v then
        match v with
        | JVal.str s => some (JVal.str (firstLine s))
        | _ => none
      else some (JVal.str "")
  | none => some (JVal.str "")

/-- Rebuild of the discussion section by `clean_management_discussion` once
the longest candidate narrative is known: carried-over identifier fields,
collapsed topic, the chosen narrative, and the `data_source`. `none` models
the `AttributeError` on a truthy non-string topic. -/
def rebuildMd (data md : Dict) (longest : JVal) : Option Dict :=
  match topicOf (md.lookup "topic") with
  | none => none
  | some topic =>
      some (setKey data "management_discussion" (JVal.obj
        [("discussion_id", (md.lookup "discussion_id").getD JVal.null),
         ("company_id", (md.lookup "company_id").getD JVal.null),
         ("fiscal_period", (md.lookup "fiscal_period").getD JVal.null),
         ("topic", topic),
         ("discussion_text", longest),
         ("data_source", (md.lookup "data_source").getD (JVal.str ""))]))

/-- `GeminiProcessor.clean_management_discussion`
(src/pdf_to_csv_processor.py, lines 62-87).  When the section's
`discussion_text` is already a plain string the whole input is returned
unchanged; otherwise the section is rebuilt with the longest candidate
discussion string (the stringified value when it is not a list, the empty
string when it is absent), the first line of a truthy topic, and the
carried-over identifier fields.  `none` models an uncaught exception
(non-dict section, lengthless candidate, or non-string truthy topic). -/
def clean_management_discussion (data : Dict) : Option Dict :=
  match data.lookup "management_discussion" with
  | none => some data
  | some (JVal.obj md) =>
      (match md.lookup "discussion_text" with
       | some (JVal.str _) => some data
       | some (JVal.arr l) =>
           (match pyMaxByLen l with
            | none => none
            | some longest => rebuildMd data md longest)
       | some v => rebuildMd data md (JVal.str (pyStr v))
       | none => rebuildMd data md (JVal.str ""))
  | some _ => none

/-- One CSV cell as written by `csv.DictWriter`: a missing key yields the
default `restval` (the empty string), `None` is written as an empty field,
other values are rendered as text. -/
def csvCell : Option JVal → String
  | none => ""
  | some JVal.null => ""
  | some (JVal.bool true) => "True"
  | some (JVal.bool false) => "False"
  | some (JVal.num q) => numRender q
  | some (JVal.str s) => s
  | some v => pyStr v

/-- One written CSV record of `CSVWriter._write_csv`
(src/pdf_to_csv_processor.py, lines 430-433): the row is first filtered to
the header keys, then `DictWriter.writerow` emits one cell per header, in
header order. -/
def csvRecord (headers : List String) (row : Dict) : List String :=
  let row_data := row.filter (fun p => headers.contains p.1)
  headers.map (fun h => csvCell (row_data.lookup h))

/-- `CSVWriter._write_csv` (src/pdf_to_csv_processor.py, lines 420-433) as a
pure state transform on the file content (`none` = the file does not exist):
a fresh file gets the header row then the data records, an existing file is
appended to without a new header. -/
def write_csv (file : Option (List (List String))) (headers : List String)
    (data : List Dict) : List (List String) :=
  match file with
  | none => headers :: data.map (csvRecord headers)
  | some existing => existing ++ data.map (csvRecord headers)

/-- A sequence of successful write runs against the same table file,
starting from a nonexistent file. -/
def run_writes (headers : List String) (batches : List (List Dict)) :
    Option (List (List String)) :=
  batches.foldl (fun f b => some (write_csv f headers b)) none

/-- Python `str.split()` (no argument): split on whitespace runs, dropping
empty words. -/
def wordsAux : List Char → List Char → List (List Char)
  | [], acc => if acc.isEmpty then [] else [acc.reverse]
  | c :: rest, acc =>
      if pyIsSpace c then
        if acc.isEmpty then wordsAux rest [] else acc.reverse :: wordsAux rest []
      else wordsAux rest (c :: acc)

/-- Python `str.split()` on whitespace. -/
def pySplitWs (cs : List Char) : List (List Char) := wordsAux cs []

/-- Python `s.strip(b)` for a single strip character `b`. -/
def stripChar (cs : List Char) (b : Char) : List Char :=
  ((cs.dropWhile (fun c => c == b)).reverse.dropWhile (fun c => c == b)).reverse

/-- Mutable state of the `CSVWriter._load_schema_configs` loop: the table
configurations collected so far, the currently open table block, and its
columns. -/
structure LoaderSt where
  configs : List (String × String × List String)
  current : Option String
  columns : List String

/-- Initial loader state. -/
def loaderInit : LoaderSt := ⟨[], none, []⟩

/-- One line of `CSVWriter._load_schema_configs`
(src/pdf_to_csv_processor.py, lines 392-405): a `CREATE TABLE` line opens a
block (its third whitespace token, stripped of parentheses, is the table
name — fewer tokens raise `IndexError`, modelled by `none`); a line starting
with `)` closes the block; inside a block, a nonempty non-comment line whose
first comma-stripped token does not start with `PRIMARY` or `CONSTRAINT`
appends that token as a column. -/
def loaderStep (st : LoaderSt) (rawLine : String) : Option LoaderSt :=
  if ("CREATE TABLE".data).isPrefixOf (pyStrip rawLine.data) then
    match (pySplitWs (pyStrip rawLine.data)).get? 2 with
    | none => none
    | some tok => some ⟨st.configs, some (String.mk (stripChar tok '(')), []⟩
  else if (")".data).isPrefixOf (pyStrip rawLine.data) && st.current.isSome then
    match st.current with
    | some t => some ⟨st.configs ++ [(t, t ++ ".csv", st.columns)], none, st.columns⟩
    | none => some st
  else
    match st.current with
    | some _ =>
        if !(pyStrip rawLine.data).isEmpty &&
           !(("--".data).isPrefixOf (pyStrip rawLine.data)) then
          match (pySplitWs (pyStrip rawLine.data)).get? 0 with
          | none => none
          | some tok0 =>
              if !(stripChar tok0 ',').isEmpty &&
                 !(("PRIMARY".data).isPrefixOf (stripChar tok0 ',') ||
                   ("CONSTRAINT".data).isPrefixOf (stripChar tok0 ','))
              then some ⟨st.configs, st.current, st.columns ++ [String.mk (stripChar tok0 ',')]⟩
              else some st
        else some st
    | none => some st

/-- `CSVWriter._load_schema_configs` (src/pdf_to_csv_processor.py, lines
386-407) over the lines of the schema source. -/
def load_schema_configs (lines : List String) :
    Option (List (String × String × List String)) :=
  (lines.foldlM loaderStep loaderInit).map LoaderSt.configs

/-- The id-column mapping of `PDFProcessor.process_table`
(src/pdf_to_csv_processor.py, lines 464-471). -/
def id_fields : List (String × String) :=
  [("financial_results", "financial_id"), ("balance_sheet", "balance_sheet_id"),
   ("cash_flow", "cash_flow_id"), ("key_ratios", "ratio_id"),
   ("outlook_or_management_discussion", "discussion_id"),
   ("recommendations_or_targets", "recommendation_id")]

/-- Python `rows.index(row)`: position of the first element comparing equal
(`==`) to `row`. -/
def indexOfRow (rows : List Dict) (r : Dict) : Nat :=
  rows.findIdx (fun x => pyEq (JVal.obj x) (JVal.obj r))

/-- First half of one iteration of the row loop of
`PDFProcessor.process_table` (src/pdf_to_csv_processor.py, lines 458-461):
set `data_source`; when a `company_id` key is present with a falsy value,
set it to `hash(filename) % 10000`. -/
def rowStage (h : String → Int) (fn : String) (row : Dict) : Dict :=
  match (setKey row "data_source" (JVal.str fn)).lookup "company_id" with
  | some v =>
      if pyTruthy v then setKey row "data_source" (JVal.str fn)
      else setKey (setKey row "data_source" (JVal.str fn)) "company_id"
        (JVal.num (PyNum.ofInt ((h fn) % 10000)))
  | none => setKey row "data_source" (JVal.str fn)

/-- Remainder of the loop iteration once the `data_source`/`company_id`
mutations (`rowStage`) are in place on row `j` of the list. -/
def annotateWithStage (h : String → Int) (fn t : String) (rows : List Dict) (j : Nat)
    (row2 : Dict) : List Dict :=
  match id_fields.lookup t with
  | none => rows.set j row2
  | some idf =>
      if (row2.lookup idf).isSome then
        (rows.set j row2).set j (setKey row2 idf (JVal.num (PyNum.ofInt
          ((h (fn ++ "_" ++ t ++ "_" ++
              Nat.repr (indexOfRow (rows.set j row2) row2))) % 10000))))
      else rows.set j row2

/-- One iteration of the row loop of `PDFProcessor.process_table`
(src/pdf_to_csv_processor.py, lines 458-474), acting on row `j` of the
mutable `rows` list: apply `rowStage`, then, when the table has a row-id
column and the row carries that key, set it to
`hash(f"{filename}_{table}_{rows.index(row)}") % 10000`, where `index` sees
the already-mutated list. -/
def annotateStep (h : String → Int) (fn t : String) (rows : List Dict) (j : Nat) :
    List Dict :=
  match rows.get? j with
  | none => rows
  | some row => annotateWithStage h fn t rows j (rowStage h fn row)

/-- The whole row-annotation loop of `PDFProcessor.process_table`
(src/pdf_to_csv_processor.py, lines 456-474). -/
def annotate_rows (h : String → Int) (fn t : String) (rows : List Dict) : List Dict :=
  (List.range rows.length).foldl (annotateStep h fn t) rows

/-- A value usable as a row dict; `none` models the `TypeError` raised when
`process_table` subscripts a non-dict row. -/
def asDict : JVal → Option Dict
  | JVal.obj f => some f
  | _ => none

/-- Success of `PDFProcessor.process_table` (src/pdf_to_csv_processor.py,
lines 442-485) as a function of the extraction response: `True` exactly when
`get_table_data` produced a truthy value that is a list of dicts (any
exception in the row loop, and any falsy or missing result, yields `False`;
CSV writing swallows its own errors and cannot fail the run). -/
def process_table (h : String → Int) (pdfFname table_name responseText : String) :
    Bool :=
  match get_table_data table_name responseText with
  | none => false
  | some v =>
      if pyTruthy v then
        match v with
        | JVal.arr elems => (elems.mapM asDict).isSome
        | _ => false
      else false

/-- Spec-side shape of a numeric-looking string as the claims describe it:
digits with embedded thousands separators and at most one decimal point,
containing at least one digit. -/
def specNumericShape (s : String) : Bool :=
  s.data.all (fun c => c.isDigit || c == ',' || c == '.') &&
  s.data.any Char.isDigit &&
  Nat.ble (s.data.countP (fun c => c == '.')) 1

/-- Spec-side value of such a string: the decimal value of its digits with
the separators stripped (numerator = all digits, denominator = ten to the
number of digits after the decimal point). -/
def specDecimalValue (s : String) : PyNum :=
  let t := commaStrip s
  ⟨(natVal (t.filter Char.isDigit) : Int),
   10 ^ ((t.dropWhile (fun c => !(c == '.'))).drop 1).length⟩

/-- The column contributed by one interior schema line, as a standalone
function: `none` for empty, comment and `PRIMARY`/`CONSTRAINT`-led lines,
otherwise the first whitespace token stripped of commas. -/
def lineColumn (raw : String) : Option String :=
  if (pyStrip raw.data).isEmpty || ("--".data).isPrefixOf (pyStrip raw.data) then none
  else
    match (pySplitWs (pyStrip raw.data)).get? 0 with
    | none => none
    | some tok0 =>
        if !(stripChar tok0 ',').isEmpty &&
           !(("PRIMARY".data).isPrefixOf (stripChar tok0 ',') ||
             ("CONSTRAINT".data).isPrefixOf (stripChar tok0 ','))
        then some (String.mk (stripChar tok0 ',')) else none

/-- Closed form of one annotated row when the list index resolves to the
row's own position `j`: `data_source` set, a falsy `company_id` replaced by
`hash(filename) % 10000`, and the table's id column (when present in the
row) set from `hash(filename_table_j) % 10000`. -/
def finalRow (h : String → Int) (fn t : String) (j : Nat) (row : Dict) : Dict :=
  match id_fields.lookup t with
  | none => rowStage h fn row
  | some idf =>
      if ((rowStage h fn row).lookup idf).isSome then
        setKey (rowStage h fn row) idf (JVal.num (PyNum.ofInt
          ((h (fn ++ "_" ++ t ++ "_" ++ Nat.repr j)) % 10000)))
      else rowStage h fn row

/-- Map a function over a list together with the position of each element. -/
def mapWithIdx (f : Nat → Dict → Dict) : Nat → List Dict → List Dict
  | _, [] => []
  | i, r :: rest => f i r :: mapWithIdx f (i + 1) rest

/- Deep well-formedness of a modelled value: every dict, at every depth,
has pairwise-distinct keys (automatic for values built by CPython, whose
dicts cannot carry duplicate keys). -/
mutual

def nodeep : JVal → Bool
  | JVal.obj f => keysDistinctDeep f
  | JVal.arr l => allDeep l
  | _ => true

def allDeep : List JVal → Bool
  | [] => true
  | x :: xs => nodeep x && allDeep xs

def keysDistinctDeep : List (String × JVal) → Bool
  | [] => true
  | (k, v) :: rest => !(rest.any (fun p => p.1 == k)) && nodeep v && keysDistinctDeep rest

end

/-- A raw model response that is directly valid JSON with a `rows` array. -/
def directResponse : String := "\x7b\"rows\": [\x7b\"quarter\": \"Q1\"\x7d]\x7d"

/-- The raw model response of claim C3: a ```json fence wrapping a one-row
`rows` payload whose percentage field is the string `45,0`. -/
def fencedResponse : String :=
  "```json\n\x7b\"rows\": [\x7b\"quarter\": \"Q1\", \"promoter_holding_pct\": \"45,0\"\x7d]\x7d\n```"

/-- A top-level payload whose discussion section is already "clean" (its
`discussion_text` is a plain string) but whose topic is multi-line. -/
def multiTopicData : Dict :=
  [("management_discussion", JVal.obj
     [("discussion_text", JVal.str "short"),
      ("topic", JVal.str "Q3 Update\nDetails...")])]

/-- Claim C1 (code bug in the source): a raw response that is directly valid
JSON of the required shape — an object with a `rows` array of objects — does
not make `get_table_data` return the rows.  The direct `json.loads` succeeds,
but the success path of the source has no `return` statement (the cleaning
and `return data["rows"]` live inside the `except json.JSONDecodeError`
handler), so the function falls through and returns `None`. -/
theorem claim_C1 :
    json_loads directResponse =
      some (JVal.obj [("rows", JVal.arr [JVal.obj [("quarter", JVal.str "Q1")]])]) ∧
    get_table_data "shareholding_pattern" directResponse = none :=
  ⟨rfl, rfl⟩

/-- Claim C2, counterexample: the empty string and the lone dash are NOT
rewritten to null by `clean_numeric_values` — they fail the `isdigit` guard
(empty after stripping) and pass through unchanged. -/
theorem claim_C2_counterexample :
    clean_numeric_values (JVal.obj [("v", JVal.str "")]) =
      some (JVal.obj [("v", JVal.str "")]) ∧
    clean_numeric_values (JVal.obj [("v", JVal.str "-")]) =
      some (JVal.obj [("v", JVal.str "-")]) ∧
    JVal.str "" ≠ JVal.null :=
  ⟨rfl, rfl, fun hcontra => JVal.noConfusion hcontra⟩

/-- Claim C3, counterexample: on the fenced response the percentage string
`45,0` is coerced by stripping the comma, yielding the number 450 (den 1),
not 45. -/
theorem claim_C3_counterexample :
    get_table_data "shareholding_pattern" fencedResponse =
      some (JVal.arr [JVal.obj [("quarter", JVal.str "Q1"),
                                ("promoter_holding_pct", JVal.num ⟨450, 1⟩)]]) ∧
    PyNum.numEq ⟨450, 1⟩ ⟨45, 1⟩ = false :=
  ⟨rfl, rfl⟩

/-- Claim C3 as amended: the fenced response normalizes to exactly one row
whose `promoter_holding_pct` is the number 450 (the comma is stripped as a
thousands separator before `float` is applied), with no error. -/
theorem claim_C3 :
    ∃ row, get_table_data "shareholding_pattern" fencedResponse =
        some (JVal.arr [JVal.obj row]) ∧
      row.lookup "promoter_holding_pct" = some (JVal.num ⟨450, 1⟩) :=
  ⟨[("quarter", JVal.str "Q1"), ("promoter_holding_pct", JVal.num ⟨450, 1⟩)], rfl, rfl⟩

/-- Claim C6, counterexample: a foreign-key line written with a leading
`FOREIGN KEY` keyword is NOT skipped by the schema loader — its first token
starts with neither `PRIMARY` nor `CONSTRAINT`, so it contributes a spurious
column named `FOREIGN`. -/
theorem claim_C6_counterexample :
    load_schema_configs
        ["CREATE TABLE t (", "  a INT,", "  FOREIGN KEY (b) REFERENCES c(d),", ")"] =
      some [("t", "t.csv", ["a", "FOREIGN"])] ∧
    (["a", "FOREIGN"] : List String) ≠ ["a"] :=
  ⟨rfl, by decide⟩

/-- Claim C8, counterexample: when the discussion section's
`discussion_text` is already a plain string, `clean_management_discussion`
returns the whole payload unchanged via its early "already clean" return —
in particular a multi-line topic is NOT reduced to its first line. -/
theorem claim_C8_counterexample :
    clean_management_discussion multiTopicData = some multiTopicData ∧
    firstLine "Q3 Update\nDetails..." ≠ "Q3 Update\nDetails..." :=
  ⟨rfl, by decide⟩

/-- Claim C9, counterexample: a row that lacks the `company_id` key entirely
(and so lacks a populated company identifier) is NOT assigned one — the
source only assigns when the key is present with a falsy value
(`'company_id' in row and not row['company_id']`). -/
theorem claim_C9_counterexample :
    annotate_rows (fun _ => 0) "r.pdf" "shareholding_pattern"
        [[("quarter", JVal.str "Q1")]] =
      [[("quarter", JVal.str "Q1"), ("data_source", JVal.str "r.pdf")]] ∧
    ([("quarter", JVal.str "Q1"), ("data_source", JVal.str "r.pdf")] : Dict).lookup
        "company_id" = none ∧
    (none : Option JVal) ≠
      some (JVal.num (PyNum.ofInt (((fun (_ : String) => (0 : Int)) "r.pdf") % 10000))) :=
  ⟨rfl, rfl, fun hcontra => Option.noConfusion hcontra⟩

/-- Claim C10: `clean_numeric_values` is not total over strings — `1.2.3`
and `4-5` pass the digit-after-stripping guard, yet `float` raises on them
(modelled by `none`), so the whole cleaning call raises instead of passing
the value through or coercing it. -/
theorem claim_C10 :
    numericGuard "1.2.3" = true ∧ numericGuard "4-5" = true ∧
    clean_numeric_values (JVal.obj [("v", JVal.str "1.2.3")]) = none ∧
    clean_numeric_values (JVal.obj [("v", JVal.str "4-5")]) = none :=
  ⟨rfl, rfl, rfl, rfl⟩

/-- Claim C7: requesting a table whose name is not among the tables the
extractor knows (the prompt table, the code's in-module list of schema
tables) yields a recoverable `false` for that table only — the `ValueError`
is caught inside `get_table_data` — and a subsequent request for a valid
table in the same run still succeeds. -/
theorem claim_C7 :
    ∀ (t1 resp1 : String) (h : String → Int) (fn : String),
      prompt_tables.contains t1 = false →
      process_table h fn t1 resp1 = false ∧
      process_table h fn "shareholding_pattern" fencedResponse = true := by
  intro t1 resp1 h fn hmem
  constructor
  · have hnot : ¬ t1 ∈ prompt_tables := by simpa [List.elem_iff] using hmem
    simp [process_table, get_table_data, hnot]
  · rfl

/-- Witness for claim C7 at a concrete unknown table name. -/
theorem claim_C7_witness :
    process_table (fun _ => 0) "r.pdf" "balance_sheet" "whatever" = false ∧
    process_table (fun _ => 0) "r.pdf" "shareholding_pattern" fencedResponse = true :=
  claim_C7 "balance_sheet" "whatever" (fun _ => 0) "r.pdf" rfl

/-- Filtering a row down to the header keys does not change lookups of
header keys. -/
theorem lookup_filter_headers (row : Dict) (headers : List String) (hk : String)
    (hmem : headers.contains hk = true) :
    (row.filter (fun p => headers.contains p.1)).lookup hk = row.lookup hk := by
  induction row with
  | nil => rfl
  | cons p rest ih =>
    obtain ⟨k, v⟩ := p
    by_cases hkk : hk = k
    · subst hkk
      simp only [List.filter_cons]
      rw [if_pos hmem]
      simp only [List.lookup_cons, beq_self_eq_true]
    · have hne : (hk == k) = false := beq_false_of_ne hkk
      by_cases hck : headers.contains k = true
      · simp only [List.filter_cons]
        rw [if_pos hck]
        simp only [List.lookup_cons, hne, ih]
      · simp only [List.filter_cons]
        rw [if_neg (by simpa using hck)]
        simp only [List.lookup_cons, hne, ih]

/-- A written record is one cell per schema column, looked up directly in
the row. -/
theorem csvRecord_eq (headers : List String) (row : Dict) :
    csvRecord headers row = headers.map (fun hk => csvCell (row.lookup hk)) := by
  unfold csvRecord
  apply List.map_congr_left
  intro hk hmem
  rw [lookup_filter_headers row headers hk (by simpa [List.elem_iff] using hmem)]

/-- Claim C4: for every input row and every table, the persisted record's
cells are exactly the schema's declared columns in declared order — one cell
per header, extra row keys dropped, absent declared columns written as the
empty field. -/
theorem claim_C4 :
    ∀ (file : Option (List (List String))) (headers : List String) (rows : List Dict),
      write_csv file headers rows =
        (match file with | none => [headers] | some c => c) ++
          rows.map (fun row => headers.map (fun hk => csvCell (row.lookup hk))) ∧
      (∀ (row : Dict), (csvRecord headers row).length = headers.length) ∧
      (∀ (row : Dict) (k : String) (v : JVal), headers.contains k = false →
        csvRecord headers ((k, v) :: row) = csvRecord headers row) ∧
      (∀ (row : Dict) (hk : String), headers.contains hk = true → row.lookup hk = none →
        csvCell ((row.filter (fun p => headers.contains p.1)).lookup hk) = "") := by
  intro file headers rows
  have hmap : rows.map (csvRecord headers) =
      rows.map (fun row => headers.map (fun hk => csvCell (row.lookup hk))) :=
    List.map_congr_left (fun r _ => csvRecord_eq headers r)
  refine ⟨?_, ?_, ?_, ?_⟩
  · cases file with
    | none => simp only [write_csv, hmap]; rfl
    | some c => simp only [write_csv, hmap]
  · intro row
    simp only [csvRecord, List.length_map]
  · intro row k v hck
    unfold csvRecord
    simp only [List.filter_cons]
    rw [if_neg (by simpa using hck)]
  · intro row hk hmem hnone
    rw [lookup_filter_headers row headers hk hmem, hnone]
    rfl

/-- Witness for claim C4 at a concrete file state, schema and row (the row
has an extra key `zz`, which is dropped, and misses column `a`, which is
written as an empty field). -/
theorem claim_C4_witness :
    write_csv none ["a", "b"] [[("zz", JVal.str "x"), ("b", JVal.str "2")]] =
      [["a", "b"]] ++ [["", "2"]] ∧
    csvRecord ["a", "b"] (("zz", JVal.str "x") :: [("b", JVal.str "2")]) =
      csvRecord ["a", "b"] [("b", JVal.str "2")] ∧
    csvCell (([("zz", JVal.str "x"), ("b", JVal.str "2")].filter
        (fun p => (["a", "b"] : List String).contains p.1)).lookup "a") = "" := by
  have hmain := claim_C4 none ["a", "b"] [[("zz", JVal.str "x"), ("b", JVal.str "2")]]
  exact ⟨hmain.1, hmain.2.2.1 [("b", JVal.str "2")] "zz" (JVal.str "x") rfl,
         hmain.2.2.2 [("zz", JVal.str "x"), ("b", JVal.str "2")] "a" rfl rfl⟩

/-- Folding further write runs onto an existing file content appends exactly
the records of each run. -/
theorem run_writes_from (headers : List String) :
    ∀ (batches : List (List Dict)) (c : List (List String)),
      batches.foldl (fun f b => some (write_csv f headers b)) (some c) =
        some (c ++ (batches.map (fun b => b.map (csvRecord headers))).flatten) := by
  intro batches
  induction batches with
  | nil => intro c; simp
  | cons b bs ih =>
    intro c
    have hstep : write_csv (some c) headers b = c ++ b.map (csvRecord headers) := rfl
    simp only [List.foldl_cons, hstep, ih, List.map_cons, List.flatten_cons,
      List.append_assoc]

/-- Claim C5: over any nonempty sequence of successful write runs against
the same (initially nonexistent) table file, the final content is the header
row written exactly once — at first creation — followed by the concatenation
of every run's records, so the data-row count is the sum of the rows written
across all runs. -/
theorem claim_C5 :
    ∀ (headers : List String) (batches : List (List Dict)), batches ≠ [] →
      run_writes headers batches =
        some (headers :: (batches.map (fun b => b.map (csvRecord headers))).flatten) ∧
      ((batches.map (fun b => b.map (csvRecord headers))).flatten).length =
        (batches.map List.length).sum := by
  intro headers batches hne
  constructor
  · obtain ⟨b, bs, rfl⟩ := List.exists_cons_of_ne_nil hne
    have hfirst : write_csv none headers b = headers :: b.map (csvRecord headers) := rfl
    unfold run_writes
    simp only [List.foldl_cons, hfirst, run_writes_from, List.map_cons,
      List.flatten_cons, List.cons_append]
  · rw [List.length_flatten, List.map_map,
      List.map_congr_left (fun (b : List Dict) _ => by
        simp : ∀ b ∈ batches, (List.length ∘ fun b => List.map (csvRecord headers) b) b =
          List.length b)]

/-- Witness for claim C5 at a concrete two-run sequence (two rows then one
row: header once, three data rows). -/
theorem claim_C5_witness :
    run_writes ["a"] [[[("a", JVal.str "1")], [("a", JVal.str "2")]], [[("a", JVal.str "3")]]] =
      some [["a"], ["1"], ["2"], ["3"]] ∧
    (2 : Nat) + 1 = 3 := by
  have hmain := claim_C5 ["a"]
    [[[("a", JVal.str "1")], [("a", JVal.str "2")]], [[("a", JVal.str "3")]]]
    (List.cons_ne_nil _ _)
  exact ⟨hmain.1, rfl⟩

/-- Reading digits by left fold from an accumulator. -/
theorem natVal_foldl (l : List Char) (a : Nat) :
    l.foldl (fun a c => 10 * a + (c.toNat - '0'.toNat)) a = a * 10 ^ l.length + natVal l := by
  induction l generalizing a with
  | nil => simp [natVal]
  | cons c cs ih =>
    have hl : natVal (c :: cs) =
        (10 * 0 + (c.toNat - '0'.toNat)) * 10 ^ cs.length + natVal cs := ih _
    simp only [List.foldl_cons, List.length_cons]
    rw [ih, hl]
    ring

/-- Digit strings concatenate multiplicatively. -/
theorem natVal_append (i f : List Char) :
    natVal (i ++ f) = natVal i * 10 ^ f.length + natVal f := by
  unfold natVal
  rw [List.foldl_append]
  have := natVal_foldl f (List.foldl (fun a c => 10 * a + (c.toNat - '0'.toNat)) 0 i)
  rw [this]
  rfl

/-- `splitDot` splits at the first dot. -/
theorem splitDot_eq (t : List Char) :
    splitDot t = (t.takeWhile (fun c => !(c == '.')),
      match t.dropWhile (fun c => !(c == '.')) with
      | [] => none
      | _ :: r => some r) := by
  induction t with
  | nil => rfl
  | cons c rest ih =>
    cases hc : (c == '.') with
    | true => simp [splitDot, hc, List.takeWhile_cons, List.dropWhile_cons]
    | false => simp [splitDot, hc, ih, List.takeWhile_cons, List.dropWhile_cons]

/-- A decimal digit is none of the three stripped separator characters. -/
theorem digit_not_sep (c : Char) (h : c.isDigit = true) :
    (c == ',') = false ∧ (c == '-') = false ∧ (c == '.') = false := by
  refine ⟨?_, ?_, ?_⟩
  · cases hb : (c == ',') with
    | false => rfl
    | true => rw [show c = ',' from eq_of_beq hb] at h; exact absurd h (by decide)
  · cases hb : (c == '-') with
    | false => rfl
    | true => rw [show c = '-' from eq_of_beq hb] at h; exact absurd h (by decide)
  · cases hb : (c == '.') with
    | false => rfl
    | true => rw [show c = '.' from eq_of_beq hb] at h; exact absurd h (by decide)

/-- The first element surviving `dropWhile` fails the predicate. -/
theorem dropWhile_head_false (p : Char → Bool) :
    ∀ (l : List Char) (a : Char) (r : List Char), l.dropWhile p = a :: r → p a = false := by
  intro l
  induction l with
  | nil => intro a r hcontra; cases hcontra
  | cons c cs ih =>
    intro a r hda
    rw [List.dropWhile_cons] at hda
    by_cases hp : p c = true
    · rw [if_pos hp] at hda
      exact ih a r hda
    · rw [if_neg hp] at hda
      cases hda
      simpa using hp

/-- `pyFloatBody` on an input with no dot. -/
theorem pyFloatBody_none (neg : Bool) (body i : List Char)
    (hany : body.any (fun c => !(c.isDigit || c == '.')) = false)
    (hsd : splitDot body = (i, none)) :
    pyFloatBody neg body = if i.isEmpty then none else some (mkPyNum neg (natVal i) 1) := by
  unfold pyFloatBody
  rw [hany, hsd]
  simp

/-- `pyFloatBody` on an input split at its first dot. -/
theorem pyFloatBody_some (neg : Bool) (body i f : List Char)
    (hany : body.any (fun c => !(c.isDigit || c == '.')) = false)
    (hsd : splitDot body = (i, some f)) :
    pyFloatBody neg body =
      if f.any (fun c => c == '.') then none
      else if i.isEmpty && f.isEmpty then none
      else some (mkPyNum neg (natVal i * 10 ^ f.length + natVal f) (10 ^ f.length)) := by
  unfold pyFloatBody
  rw [hany, hsd]
  simp

/-- A spec-shaped numeric string passes the code's digit-after-stripping
guard. -/
theorem shape_guard (s : String) (hs : specNumericShape s = true) : numericGuard s = true := by
  unfold specNumericShape at hs
  rw [Bool.and_eq_true, Bool.and_eq_true] at hs
  obtain ⟨⟨h1, h2⟩, _⟩ := hs
  unfold numericGuard pyIsdigit
  have hfe : s.data.filter (fun c => !(c == ',' || c == '-' || c == '.')) =
      s.data.filter Char.isDigit := by
    apply List.filter_congr
    intro c hc
    have hor := (List.all_eq_true.mp h1) c hc
    simp only [Bool.or_eq_true] at hor
    rcases hor with (hd | hcomma) | hdot
    · obtain ⟨hx1, hx2, hx3⟩ := digit_not_sep c hd
      simp [hx1, hx2, hx3, hd]
    · rw [show c = ',' from eq_of_beq hcomma]; decide
    · rw [show c = '.' from eq_of_beq hdot]; decide
  rw [hfe]
  obtain ⟨c, hc, hcd⟩ := List.any_eq_true.mp h2
  have hmemf : c ∈ s.data.filter Char.isDigit := List.mem_filter.mpr ⟨hc, hcd⟩
  have hne : s.data.filter Char.isDigit ≠ [] := List.ne_nil_of_mem hmemf
  rw [Bool.and_eq_true]
  constructor
  · cases hfil : s.data.filter Char.isDigit with
    | nil => exact absurd hfil hne
    | cons a l => rfl
  · rw [List.all_eq_true]
    intro x hx
    exact (List.mem_filter.mp hx).2

/-- On a string of digits with at most one dot (and at least one digit),
`float` succeeds and returns the decimal value of the digits scaled by the
length of the fraction part. -/
theorem pyFloat_shape (t : List Char)
    (h1 : ∀ c ∈ t, c.isDigit = true ∨ c = '.')
    (h2 : ∃ c ∈ t, c.isDigit = true)
    (h3 : t.countP (fun c => c == '.') ≤ 1) :
    pyFloat t = some ⟨(natVal (t.filter Char.isDigit) : Int),
      10 ^ ((t.dropWhile (fun c => !(c == '.'))).drop 1).length⟩ := by
  obtain ⟨c0, hc0mem, hc0dig⟩ := h2
  have htne : t ≠ [] := List.ne_nil_of_mem hc0mem
  have hstep : pyFloat t = pyFloatBody false t := by
    cases t with
    | nil => exact absurd rfl htne
    | cons a rest =>
        have ha : (a == '-') = false := by
          rcases h1 a (List.mem_cons_self a rest) with hd | hd
          · exact (digit_not_sep a hd).2.1
          · rw [hd]; decide
        simp [pyFloat, ha]
  have hany : t.any (fun c => !(c.isDigit || c == '.')) = false := by
    rw [List.any_eq_false]
    intro c hc
    rcases h1 c hc with hd | hd
    · simp [hd]
    · rw [hd]; decide
  rw [hstep]
  cases hA : t.dropWhile (fun c => !(c == '.')) with
  | nil =>
      have hsd : splitDot t = (t.takeWhile (fun c => !(c == '.')), none) := by
        rw [splitDot_eq t, hA]
      rw [pyFloatBody_none false t _ hany hsd]
      have htake : t.takeWhile (fun c => !(c == '.')) = t := by
        have happ := List.takeWhile_append_dropWhile (p := fun c => !(c == '.')) (l := t)
        rw [hA, List.append_nil] at happ
        exact happ
      have hnodot : ∀ c ∈ t, (!(c == '.')) = true := by
        intro c hc
        exact List.dropWhile_eq_nil_iff.mp hA c hc
      have hfilter : t.filter Char.isDigit = t := by
        rw [List.filter_eq_self]
        intro c hc
        rcases h1 c hc with hd | hd
        · exact hd
        · exact absurd (hnodot c hc) (by rw [hd]; decide)
      rw [htake, hfilter]
      rw [if_neg (by simpa [List.isEmpty_iff] using htne)]
      rfl
  | cons a f =>
      have ha : a = '.' := by
        have hpa := dropWhile_head_false (fun c => !(c == '.')) t a f hA
        simpa using eq_of_beq (by simpa using hpa)
      subst ha
      have hsd : splitDot t = (t.takeWhile (fun c => !(c == '.')), some f) := by
        rw [splitDot_eq t, hA]
      rw [pyFloatBody_some false t _ f hany hsd]
      have happ := List.takeWhile_append_dropWhile (p := fun c => !(c == '.')) (l := t)
      rw [hA] at happ
      set i := t.takeWhile (fun c => !(c == '.')) with hidef
      have hidig : ∀ c ∈ i, c.isDigit = true := by
        intro c hc
        have hmt : c ∈ t := by rw [← happ]; exact List.mem_append_left _ hc
        rcases h1 c hmt with hd | hd
        · exact hd
        · exact absurd (List.mem_takeWhile_imp hc) (by rw [hd]; decide)
      have hcount : t.countP (fun c => c == '.') =
          i.countP (fun c => c == '.') + (1 + f.countP (fun c => c == '.')) := by
        rw [← happ, List.countP_append, List.countP_cons]
        simp [add_comm]
      have hizero : i.countP (fun c => c == '.') = 0 := by
        rw [List.countP_eq_zero]
        intro c hc
        have := digit_not_sep c (hidig c hc)
        simp [this.2.2]
      have hfzero : f.countP (fun c => c == '.') = 0 := by
        rw [hcount, hizero] at h3
        omega
      have hfdig : ∀ c ∈ f, c.isDigit = true := by
        intro c hc
        have hmt : c ∈ t := by
          rw [← happ]; exact List.mem_append_right _ (List.mem_cons_of_mem _ hc)
        rcases h1 c hmt with hd | hd
        · exact hd
        · exact absurd (List.countP_eq_zero.mp hfzero c hc) (by rw [hd]; simp)
      have hfany : f.any (fun c => c == '.') = false := by
        rw [List.any_eq_false]
        intro c hc
        exact List.countP_eq_zero.mp hfzero c hc
      rw [hfany, if_neg Bool.false_ne_true]
      have hieone : (i.isEmpty && f.isEmpty) = false := by
        cases hie : i.isEmpty with
        | false => rfl
        | true =>
            cases hfe : f.isEmpty with
            | false => rfl
            | true =>
                exfalso
                have hi0 : i = [] := by simpa [List.isEmpty_iff] using hie
                have hf0 : f = [] := by simpa [List.isEmpty_iff] using hfe
                have hdot : t = ['.'] := by rw [← happ, hi0, hf0]; rfl
                rw [hdot] at hc0mem
                have hc0 : c0 = '.' := by simpa using hc0mem
                rw [hc0] at hc0dig
                exact absurd hc0dig (by decide)
      rw [hieone, if_neg Bool.false_ne_true]
      have hfilter : t.filter Char.isDigit = i ++ f := by
        rw [← happ, List.filter_append]
        have hfi : i.filter Char.isDigit = i := List.filter_eq_self.mpr hidig
        have hff : ('.' :: f).filter Char.isDigit = f := by
          rw [List.filter_cons]
          simp only [show ('.'.isDigit) = false by decide, Bool.false_eq_true, if_false]
          exact List.filter_eq_self.mpr hfdig
        rw [hfi, hff]
      rw [hfilter, natVal_append]
      rfl

/-- The single-entry coercion: a spec-shaped numeric string value in a dict
is rewritten to its decimal value with separators stripped. -/
theorem clean_single (k : String) (s : String) (hs : specNumericShape s = true) :
    clean_numeric_values (JVal.obj [(k, JVal.str s)]) =
      some (JVal.obj [(k, JVal.num (specDecimalValue s))]) := by
  have hguard := shape_guard s hs
  unfold specNumericShape at hs
  rw [Bool.and_eq_true, Bool.and_eq_true] at hs
  obtain ⟨⟨h1, h2⟩, h3⟩ := hs
  have h3' : s.data.countP (fun c => c == '.') ≤ 1 := Nat.le_of_ble_eq_true h3
  have ht1 : ∀ c ∈ commaStrip s, c.isDigit = true ∨ c = '.' := by
    intro c hc
    obtain ⟨hmem, hpred⟩ := List.mem_filter.mp hc
    have hor := (List.all_eq_true.mp h1) c hmem
    simp only [Bool.or_eq_true] at hor
    rcases hor with (hd | hcomma) | hdot
    · exact Or.inl hd
    · exact absurd hcomma (by simpa using hpred)
    · exact Or.inr (eq_of_beq hdot)
  have ht2 : ∃ c ∈ commaStrip s, c.isDigit = true := by
    obtain ⟨c, hc, hcd⟩ := List.any_eq_true.mp h2
    refine ⟨c, List.mem_filter.mpr ⟨hc, ?_⟩, hcd⟩
    simp [(digit_not_sep c hcd).1]
  have ht3 : (commaStrip s).countP (fun c => c == '.') ≤ 1 :=
    le_trans (List.Sublist.countP_le _ (List.filter_sublist _)) h3'
  have hfloat := pyFloat_shape (commaStrip s) ht1 ht2 ht3
  show (cleanFields [(k, JVal.str s)]).map JVal.obj = _
  rw [cleanFields, hguard]
  simp only [if_true]
  rw [hfloat]
  rfl

/-- Claim C2 as amended: a spec-shaped numeric string (digits with embedded
thousands separators and at most one decimal point) is rewritten to the
equivalent number with separators stripped; the strings `""` and `"-"` pass
through UNCHANGED (not null); any string failing the digit-after-stripping
guard passes through unchanged; and the rewrite descends through nested
dicts and lists. -/
theorem claim_C2 :
    (∀ (k s : String), specNumericShape s = true →
        clean_numeric_values (JVal.obj [(k, JVal.str s)]) =
          some (JVal.obj [(k, JVal.num (specDecimalValue s))])) ∧
    (∀ (k : String),
        clean_numeric_values (JVal.obj [(k, JVal.str "")]) =
          some (JVal.obj [(k, JVal.str "")]) ∧
        clean_numeric_values (JVal.obj [(k, JVal.str "-")]) =
          some (JVal.obj [(k, JVal.str "-")])) ∧
    (∀ (k s : String), numericGuard s = false →
        clean_numeric_values (JVal.obj [(k, JVal.str s)]) =
          some (JVal.obj [(k, JVal.str s)])) ∧
    (∀ (k k2 s : String), specNumericShape s = true →
        clean_numeric_values (JVal.obj [(k, JVal.arr [JVal.obj [(k2, JVal.str s)]])]) =
          some (JVal.obj [(k, JVal.arr [JVal.obj [(k2, JVal.num (specDecimalValue s))]])])) := by
  refine ⟨clean_single, ?_, ?_, ?_⟩
  · intro k
    exact ⟨rfl, rfl⟩
  · intro k s hguard
    show (cleanFields [(k, JVal.str s)]).map JVal.obj = _
    rw [cleanFields, hguard]
    rfl
  · intro k k2 s hs
    have hinner := clean_single k2 s hs
    show (cleanFields [(k, JVal.arr [JVal.obj [(k2, JVal.str s)]])]).map JVal.obj = _
    rw [cleanFields]
    have hitems : cleanItems [JVal.obj [(k2, JVal.str s)]] =
        some [JVal.obj [(k2, JVal.num (specDecimalValue s))]] := by
      rw [cleanItems, hinner]
      rfl
    rw [hitems]
    rfl

/-- Witness for claim C2 at the spec's own example `1,234.50` (value
123450/100 = 1234.5) and at a non-numeric string. -/
theorem claim_C2_witness :
    specNumericShape "1,234.50" = true ∧
    clean_numeric_values (JVal.obj [("v", JVal.str "1,234.50")]) =
      some (JVal.obj [("v", JVal.num ⟨123450, 100⟩)]) ∧
    numericGuard "Q1" = false ∧
    clean_numeric_values (JVal.obj [("v", JVal.str "Q1")]) =
      some (JVal.obj [("v", JVal.str "Q1")]) := by
  refine ⟨rfl, ?_, rfl, claim_C2.2.2.1 "v" "Q1" rfl⟩
  have hmain := claim_C2.1 "v" "1,234.50" rfl
  exact hmain

/-- `dropWhile` keeps the last element when its result is nonempty. -/
theorem dropWhile_getLast (p : Char → Bool) :
    ∀ (l : List Char), l.dropWhile p ≠ [] → (l.dropWhile p).getLast? = l.getLast? := by
  intro l
  induction l with
  | nil => intro hcontra; exact absurd rfl hcontra
  | cons x xs ih =>
    intro hne
    rw [List.dropWhile_cons] at hne ⊢
    by_cases hp : p x = true
    · rw [if_pos hp] at hne ⊢
      have hxs : xs ≠ [] := by
        intro hx
        rw [hx] at hne
        exact hne rfl
      obtain ⟨y, ys, rfl⟩ := List.exists_cons_of_ne_nil hxs
      rw [ih hne, List.getLast?_cons_cons]
    · rw [if_neg hp]

/-- A nonempty stripped line starts with a non-whitespace character. -/
theorem pyStrip_head (cs : List Char) (c : Char) (rest : List Char)
    (hs : pyStrip cs = c :: rest) : pyIsSpace c = false := by
  unfold pyStrip at hs
  have hd : ((cs.dropWhile pyIsSpace).reverse.dropWhile pyIsSpace) ≠ [] := by
    intro hcontra
    rw [hcontra] at hs
    exact absurd hs (by simp)
  have hlast := dropWhile_getLast pyIsSpace (cs.dropWhile pyIsSpace).reverse hd
  have hhead : (((cs.dropWhile pyIsSpace).reverse.dropWhile pyIsSpace).reverse).head? = some c := by
    rw [hs]; rfl
  rw [List.head?_reverse, hlast, List.getLast?_reverse] at hhead
  obtain ⟨r2, hr2⟩ : ∃ r2, cs.dropWhile pyIsSpace = c :: r2 := by
    cases hdw : cs.dropWhile pyIsSpace with
    | nil => rw [hdw] at hhead; cases hhead
    | cons a r2 =>
        rw [hdw] at hhead
        simp only [List.head?_cons, Option.some.injEq] at hhead
        exact ⟨r2, by rw [hhead]⟩
  exact dropWhile_head_false pyIsSpace cs c r2 hr2

/-- `wordsAux` never returns the empty list when its accumulator is
nonempty. -/
theorem wordsAux_ne_nil : ∀ (cs acc : List Char), acc ≠ [] → wordsAux cs acc ≠ [] := by
  intro cs
  induction cs with
  | nil =>
      intro acc hacc
      unfold wordsAux
      rw [if_neg (by simpa [List.isEmpty_iff] using hacc)]
      exact List.cons_ne_nil _ _
  | cons c rest ih =>
      intro acc hacc
      unfold wordsAux
      by_cases hsp : pyIsSpace c = true
      · rw [if_pos hsp, if_neg (by simpa [List.isEmpty_iff] using hacc)]
        exact List.cons_ne_nil _ _
      · rw [if_neg hsp]
        exact ih _ (List.cons_ne_nil _ _)

/-- A nonempty stripped line has a first whitespace token. -/
theorem firstTok_some (raw : String) (hne : pyStrip raw.data ≠ []) :
    ∃ tok, (pySplitWs (pyStrip raw.data)).get? 0 = some tok := by
  obtain ⟨c, rest, hcr⟩ := List.exists_cons_of_ne_nil hne
  have hcsp := pyStrip_head raw.data c rest hcr
  rw [hcr]
  have hw : pySplitWs (c :: rest) = wordsAux rest [c] := by
    show wordsAux (c :: rest) [] = wordsAux rest [c]
    rw [wordsAux, hcsp]
    rw [if_neg Bool.false_ne_true]
  have hne2 : wordsAux rest [c] ≠ [] := wordsAux_ne_nil rest [c] (List.cons_ne_nil _ _)
  obtain ⟨w, ws, hws⟩ := List.exists_cons_of_ne_nil hne2
  exact ⟨w, by rw [hw, hws]; rfl⟩

/-- Inside an open table block, a line that neither opens nor closes a block
advances the loader by exactly the column `lineColumn` assigns to it. -/
theorem loaderStep_interior (configs0 : List (String × String × List String))
    (name : String) (cols0 : List String) (l : String)
    (hnc : (("CREATE TABLE".data).isPrefixOf (pyStrip l.data)) = false)
    (hnp : ((")".data).isPrefixOf (pyStrip l.data)) = false) :
    loaderStep ⟨configs0, some name, cols0⟩ l =
      some ⟨configs0, some name, cols0 ++ (lineColumn l).toList⟩ := by
  unfold loaderStep lineColumn
  rw [hnc, if_neg Bool.false_ne_true, hnp]
  simp only [Bool.false_and, Bool.false_eq_true, if_false]
  cases hempty : (pyStrip l.data).isEmpty with
  | true => simp [hempty]
  | false =>
      cases hcom : ("--".data).isPrefixOf (pyStrip l.data) with
      | true => simp [hempty, hcom]
      | false =>
          have hne : pyStrip l.data ≠ [] := by
            intro hcontra
            rw [hcontra] at hempty
            cases hempty
          obtain ⟨tok, htok⟩ := firstTok_some l hne
          simp only [hempty, hcom, Bool.or_self, Bool.false_eq_true, if_false,
            Bool.not_false, Bool.and_self, if_true, htok]
          split_ifs with hC <;> simp

/-- Folding the loader over the interior of a block appends exactly the
per-line columns. -/
theorem loader_block (name : String) :
    ∀ (interior : List String) (configs0 : List (String × String × List String))
      (cols0 : List String),
      (∀ l ∈ interior, (("CREATE TABLE".data).isPrefixOf (pyStrip l.data)) = false ∧
                       ((")".data).isPrefixOf (pyStrip l.data)) = false) →
      List.foldlM loaderStep (⟨configs0, some name, cols0⟩ : LoaderSt) interior =
        some ⟨configs0, some name, cols0 ++ interior.filterMap lineColumn⟩ := by
  intro interior
  induction interior with
  | nil => intro c0 cs0 _; simp
  | cons l rest ih =>
      intro c0 cs0 hyp
      have hl := hyp l (List.mem_cons_self l rest)
      have hstep := loaderStep_interior c0 name cs0 l hl.1 hl.2
      have hrest := ih c0 (cs0 ++ (lineColumn l).toList)
        (fun x hx => hyp x (List.mem_cons_of_mem l hx))
      simp only [List.foldlM_cons, hstep, Option.bind_eq_bind, Option.some_bind, hrest]
      cases hlc : lineColumn l <;> simp [List.filterMap_cons, hlc]

/-- Claim C6 as amended: a schema block contributes one output column per
interior line as computed by `lineColumn` — nonempty non-comment lines whose
first comma-stripped token does not start with `PRIMARY` or `CONSTRAINT`
contribute that token, and a line whose first token does start with
`PRIMARY` or `CONSTRAINT` is skipped.  (A bare `FOREIGN KEY` line is not
skipped; see the counterexample.) -/
theorem claim_C6 :
    ∀ (header name : String) (interior : List String),
      loaderStep loaderInit header = some ⟨[], some name, []⟩ →
      (∀ l ∈ interior, (("CREATE TABLE".data).isPrefixOf (pyStrip l.data)) = false ∧
                       ((")".data).isPrefixOf (pyStrip l.data)) = false) →
      load_schema_configs (header :: interior ++ [")"]) =
        some [(name, name ++ ".csv", interior.filterMap lineColumn)] ∧
      (∀ (l : String) (tok : List Char),
        (pySplitWs (pyStrip l.data)).get? 0 = some tok →
        (("PRIMARY".data).isPrefixOf (stripChar tok ',') ||
         ("CONSTRAINT".data).isPrefixOf (stripChar tok ',')) = true →
        lineColumn l = none) := by
  intro header name interior hheader hint
  constructor
  · have hblock := loader_block name interior [] [] hint
    simp only [List.nil_append] at hblock
    have hclose : loaderStep ⟨[], some name, interior.filterMap lineColumn⟩ ")" =
        some ⟨[(name, name ++ ".csv", interior.filterMap lineColumn)], none,
          interior.filterMap lineColumn⟩ := rfl
    unfold load_schema_configs
    simp only [List.foldlM_cons, List.foldlM_append, List.foldlM_nil, hheader, hblock,
      hclose, Option.bind_eq_bind, Option.some_bind]
    rfl
  · intro l tok htok hpref
    unfold lineColumn
    cases hcond : ((pyStrip l.data).isEmpty || ("--".data).isPrefixOf (pyStrip l.data)) with
    | true => simp [hcond]
    | false =>
        simp only [hcond, Bool.false_eq_true, if_false, htok, hpref, Bool.not_true,
          Bool.and_false]

/-- Witness for claim C6 at a concrete block with one ordinary column line
and one PRIMARY KEY line. -/
theorem claim_C6_witness :
    load_schema_configs ["CREATE TABLE t (", "  a INT,", "  PRIMARY KEY (a),", ")"] =
      some [("t", "t.csv", ["a"])] ∧
    lineColumn "  PRIMARY KEY (a)," = none := by
  have hmain := claim_C6 "CREATE TABLE t (" "t" ["  a INT,", "  PRIMARY KEY (a),"]
    rfl (by decide)
  refine ⟨hmain.1, hmain.2 "  PRIMARY KEY (a)," ("PRIMARY".data) rfl rfl⟩

/-- `pyMaxGo` over string candidates returns a candidate (or the incumbent)
of maximal length, preferring the incumbent on ties. -/
theorem pyMaxGo_str :
    ∀ (l : List JVal) (sb : String), (∀ x ∈ l, ∃ s, x = JVal.str s) →
      ∃ s, pyMaxGo (JVal.str sb) sb.length l = some (JVal.str s) ∧
           (s = sb ∨ JVal.str s ∈ l) ∧ sb.length ≤ s.length ∧
           (∀ t, JVal.str t ∈ l → t.length ≤ s.length) := by
  intro l
  induction l with
  | nil =>
      intro sb _
      exact ⟨sb, rfl, Or.inl rfl, le_refl _, by simp⟩
  | cons x xs ih =>
      intro sb hstr
      obtain ⟨s0, rfl⟩ := hstr x (List.mem_cons_self x xs)
      have htail : ∀ y ∈ xs, ∃ s, y = JVal.str s :=
        fun y hy => hstr y (List.mem_cons_of_mem _ hy)
      by_cases hlt : sb.length < s0.length
      · obtain ⟨s, hgo, hmem, hge, hbound⟩ := ih s0 htail
        refine ⟨s, ?_, ?_, le_trans (le_of_lt hlt) hge, ?_⟩
        · simp only [pyMaxGo, pyLen]
          rw [if_pos hlt]
          exact hgo
        · rcases hmem with h | h
          · exact Or.inr (h ▸ List.mem_cons_self _ _)
          · exact Or.inr (List.mem_cons_of_mem _ h)
        · intro t ht
          rcases List.mem_cons.mp ht with h | h
          · have ht0 : t = s0 := by injection h
            rw [ht0]
            exact hge
          · exact hbound t h
      · obtain ⟨s, hgo, hmem, hge, hbound⟩ := ih sb htail
        refine ⟨s, ?_, ?_, hge, ?_⟩
        · simp only [pyMaxGo, pyLen]
          rw [if_neg hlt]
          exact hgo
        · rcases hmem with h | h
          · exact Or.inl h
          · exact Or.inr (List.mem_cons_of_mem _ h)
        · intro t ht
          rcases List.mem_cons.mp ht with h | h
          · have ht0 : t = s0 := by injection h
            rw [ht0]
            exact le_trans (Nat.le_of_not_lt hlt) hge
          · exact hbound t h

/-- `max(candidates, key=len)` over a nonempty list of strings returns a
member of maximal length. -/
theorem pyMax_strs (l : List JVal) (hne : l ≠ []) (hstr : ∀ x ∈ l, ∃ s, x = JVal.str s) :
    ∃ s, pyMaxByLen l = some (JVal.str s) ∧ JVal.str s ∈ l ∧
         (∀ t, JVal.str t ∈ l → t.length ≤ s.length) := by
  obtain ⟨x, xs, rfl⟩ := List.exists_cons_of_ne_nil hne
  obtain ⟨s0, rfl⟩ := hstr x (List.mem_cons_self x xs)
  obtain ⟨s, hgo, hmem, hge, hbound⟩ :=
    pyMaxGo_str xs s0 (fun y hy => hstr y (List.mem_cons_of_mem _ hy))
  refine ⟨s, ?_, ?_, ?_⟩
  · simp only [pyMaxByLen, pyLen]
    exact hgo
  · rcases hmem with h | h
    · exact h ▸ List.mem_cons_self _ _
    · exact List.mem_cons_of_mem _ h
  · intro t ht
    rcases List.mem_cons.mp ht with h | h
    · have ht0 : t = s0 := by injection h
      rw [ht0]
      exact hge
    · exact hbound t h

/-- Claim C8 as amended: when `discussion_text` is already a single string
the payload is returned unchanged (topic untouched); when it is a nonempty
list of candidate strings, the rebuilt section keeps a longest candidate
(first maximal wins) as the single `discussion_text` and reduces the truthy
topic string to its first line. -/
theorem claim_C8 :
    (∀ (data md : Dict) (s : String),
        data.lookup "management_discussion" = some (JVal.obj md) →
        md.lookup "discussion_text" = some (JVal.str s) →
        clean_management_discussion data = some data) ∧
    (∀ (data md : Dict) (l : List JVal) (ts : String),
        data.lookup "management_discussion" = some (JVal.obj md) →
        md.lookup "discussion_text" = some (JVal.arr l) →
        l ≠ [] → (∀ x ∈ l, ∃ s, x = JVal.str s) →
        md.lookup "topic" = some (JVal.str ts) → ts ≠ "" →
        ∃ s, clean_management_discussion data =
            some (setKey data "management_discussion" (JVal.obj
              [("discussion_id", (md.lookup "discussion_id").getD JVal.null),
               ("company_id", (md.lookup "company_id").getD JVal.null),
               ("fiscal_period", (md.lookup "fiscal_period").getD JVal.null),
               ("topic", JVal.str (firstLine ts)),
               ("discussion_text", JVal.str s),
               ("data_source", (md.lookup "data_source").getD (JVal.str ""))])) ∧
          JVal.str s ∈ l ∧ (∀ t, JVal.str t ∈ l → t.length ≤ s.length)) := by
  constructor
  · intro data md s h1 h2
    simp only [clean_management_discussion, h1, h2]
  · intro data md l ts h1 h2 hne hstr htopic hts
    obtain ⟨s, hmax, hmem, hbound⟩ := pyMax_strs l hne hstr
    refine ⟨s, ?_, hmem, hbound⟩
    have htruthy : pyTruthy (JVal.str ts) = true := by
      simp [pyTruthy, hts]
    simp only [clean_management_discussion, h1, h2, hmax, rebuildMd, topicOf, htopic,
      htruthy, if_true]

/-- Witness for claim C8 at a concrete candidate list and a multi-line
topic. -/
theorem claim_C8_witness :
    ∃ s, clean_management_discussion
        [("management_discussion", JVal.obj
           [("discussion_text", JVal.arr [JVal.str "ab", JVal.str "abcd", JVal.str "xy"]),
            ("topic", JVal.str "Q3 Update\nDetails...")])] =
      some (setKey
        [("management_discussion", JVal.obj
           [("discussion_text", JVal.arr [JVal.str "ab", JVal.str "abcd", JVal.str "xy"]),
            ("topic", JVal.str "Q3 Update\nDetails...")])]
        "management_discussion" (JVal.obj
          [("discussion_id", JVal.null),
           ("company_id", JVal.null),
           ("fiscal_period", JVal.null),
           ("topic", JVal.str (firstLine "Q3 Update\nDetails...")),
           ("discussion_text", JVal.str s),
           ("data_source", JVal.str "")])) ∧
      JVal.str s ∈ [JVal.str "ab", JVal.str "abcd", JVal.str "xy"] ∧
      (∀ t, JVal.str t ∈ [JVal.str "ab", JVal.str "abcd", JVal.str "xy"] →
        t.length ≤ s.length) := by
  have hmain := claim_C8.2
    [("management_discussion", JVal.obj
       [("discussion_text", JVal.arr [JVal.str "ab", JVal.str "abcd", JVal.str "xy"]),
        ("topic", JVal.str "Q3 Update\nDetails...")])]
    [("discussion_text", JVal.arr [JVal.str "ab", JVal.str "abcd", JVal.str "xy"]),
     ("topic", JVal.str "Q3 Update\nDetails...")]
    [JVal.str "ab", JVal.str "abcd", JVal.str "xy"]
    "Q3 Update\nDetails..."
    rfl rfl (List.cons_ne_nil _ _)
    (by
      intro x hx
      simp only [List.mem_cons, List.not_mem_nil, or_false] at hx
      rcases hx with rfl | rfl | rfl
      · exact ⟨"ab", rfl⟩
      · exact ⟨"abcd", rfl⟩
      · exact ⟨"xy", rfl⟩)
    rfl (by decide)
  exact hmain

/-- A successful lookup pair is a member of the association list. -/
theorem lookup_mem {β : Type} (l : List (String × β)) (k : String) (v : β)
    (hlk : l.lookup k = some v) : (k, v) ∈ l := by
  induction l with
  | nil => cases hlk
  | cons p rest ih =>
      obtain ⟨k0, v0⟩ := p
      cases hb : (k == k0) with
      | true =>
          simp only [List.lookup, hb] at hlk
          cases hlk
          rw [show k = k0 from eq_of_beq hb]
          exact List.mem_cons_self _ _
      | false =>
          simp only [List.lookup, hb] at hlk
          exact List.mem_cons_of_mem _ (ih hlk)

/-- No key occurrence means no lookup result. -/
theorem lookup_none_of_any_false (d : Dict) (k : String)
    (hany : d.any (fun p => p.1 == k) = false) : d.lookup k = none := by
  induction d with
  | nil => rfl
  | cons p rest ih =>
      obtain ⟨k0, v0⟩ := p
      rw [List.any_cons, Bool.or_eq_false_iff] at hany
      have hk0 : (k == k0) = false := by
        rw [beq_eq_false_iff_ne] at hany ⊢
        exact fun he => hany.1 he.symm
      simp only [List.lookup, hk0]
      exact ih hany.2

/-- Replacing key `k` in place leaves lookups of other keys unchanged. -/
theorem lookup_map_setKey_ne (d : Dict) (k k' : String) (v : JVal) (hne : k' ≠ k) :
    (d.map (fun p => if p.1 == k then (k, v) else p)).lookup k' = d.lookup k' := by
  induction d with
  | nil => rfl
  | cons p rest ih =>
      obtain ⟨k0, v0⟩ := p
      have hk'k : (k' == k) = false := beq_false_of_ne hne
      cases hb : (k0 == k) with
      | true =>
          have hk0 : k0 = k := eq_of_beq hb
          have hk'k0 : (k' == k0) = false := by rw [hk0]; exact hk'k
          rw [List.map_cons, if_pos hb]
          simp only [List.lookup, hk'k, hk'k0]
          exact ih
      | false =>
          rw [List.map_cons, if_neg (by simp [hb])]
          simp only [List.lookup]
          cases hb' : (k' == k0) with
          | true => simp only [hb']
          | false => simp only [hb']; exact ih

/-- Appending a fresh key leaves lookups of other keys unchanged. -/
theorem lookup_append_ne (d : Dict) (k k' : String) (v : JVal) (hne : k' ≠ k) :
    (d ++ [(k, v)]).lookup k' = d.lookup k' := by
  induction d with
  | nil =>
      simp only [List.nil_append, List.lookup, beq_false_of_ne hne]
  | cons p rest ih =>
      obtain ⟨k0, v0⟩ := p
      simp only [List.cons_append, List.lookup]
      cases hb : (k' == k0) with
      | true => rfl
      | false => exact ih

/-- `setKey` leaves lookups of other keys unchanged. -/
theorem lookup_setKey_ne (d : Dict) (k k' : String) (v : JVal) (hne : k' ≠ k) :
    (setKey d k v).lookup k' = d.lookup k' := by
  unfold setKey
  cases hany : d.any (fun p => p.1 == k) with
  | true => exact lookup_map_setKey_ne d k k' v hne
  | false => exact lookup_append_ne d k k' v hne

/-- The in-place key replacement preserves which keys occur. -/
theorem any_key_map (d : Dict) (k x : String) (v : JVal) :
    ((d.map (fun p => if p.1 == k then (k, v) else p)).any (fun p => p.1 == x)) =
      d.any (fun p => p.1 == x) := by
  induction d with
  | nil => rfl
  | cons p rest ih =>
      obtain ⟨k0, v0⟩ := p
      cases hb : (k0 == k) with
      | true =>
          have hk0 : k0 = k := eq_of_beq hb
          rw [List.map_cons, if_pos hb]
          simp only [List.any_cons, ih, hk0]
      | false =>
          rw [List.map_cons, if_neg (by simp [hb])]
          simp only [List.any_cons, ih]

/-- Appending a fresh key preserves distinct-keys well-formedness. -/
theorem keysDD_append (d : Dict) (k : String) (v : JVal)
    (hd : keysDistinctDeep d = true) (hv : nodeep v = true)
    (hany : d.any (fun p => p.1 == k) = false) :
    keysDistinctDeep (d ++ [(k, v)]) = true := by
  induction d with
  | nil => simp [keysDistinctDeep, hv]
  | cons p rest ih =>
      obtain ⟨k0, v0⟩ := p
      rw [List.any_cons, Bool.or_eq_false_iff] at hany
      simp only [keysDistinctDeep, Bool.and_eq_true] at hd
      obtain ⟨⟨hfresh, hv0⟩, hrest⟩ := hd
      have hknotk0 : (k == k0) = false := by
        rw [beq_eq_false_iff_ne] at hany ⊢
        exact fun he => hany.1 he.symm
      simp only [List.cons_append, keysDistinctDeep, Bool.and_eq_true]
      refine ⟨⟨?_, hv0⟩, ih hrest hany.2⟩
      rw [Bool.not_eq_true', List.any_eq_false]
      intro x hx
      rcases List.mem_append.mp hx with hx | hx
      · have hf : rest.any (fun p => p.1 == k0) = false := by simpa using hfresh
        exact List.any_eq_false.mp hf x hx
      · have hxe : x = (k, v) := by simpa using hx
        rw [hxe]
        simp [hknotk0]

/-- In-place replacement preserves distinct-keys well-formedness. -/
theorem keysDD_map (d : Dict) (k : String) (v : JVal)
    (hd : keysDistinctDeep d = true) (hv : nodeep v = true) :
    keysDistinctDeep (d.map (fun p => if p.1 == k then (k, v) else p)) = true := by
  induction d with
  | nil => rfl
  | cons p rest ih =>
      obtain ⟨k0, v0⟩ := p
      simp only [keysDistinctDeep, Bool.and_eq_true] at hd
      obtain ⟨⟨hfresh, hv0⟩, hrest⟩ := hd
      cases hb : (k0 == k) with
      | true =>
          have hk0 : k0 = k := eq_of_beq hb
          rw [List.map_cons, if_pos hb]
          simp only [keysDistinctDeep, Bool.and_eq_true]
          refine ⟨⟨?_, hv⟩, ih hrest⟩
          rw [any_key_map]
          rw [← hk0]
          simpa using hfresh
      | false =>
          rw [List.map_cons, if_neg (by simp [hb])]
          simp only [keysDistinctDeep, Bool.and_eq_true]
          refine ⟨⟨?_, hv0⟩, ih hrest⟩
          rw [any_key_map]
          simpa using hfresh

/-- `setKey` preserves distinct-keys well-formedness when the inserted value
is well-formed. -/
theorem setKey_keysDD (d : Dict) (k : String) (v : JVal)
    (hd : keysDistinctDeep d = true) (hv : nodeep v = true) :
    keysDistinctDeep (setKey d k v) = true := by
  unfold setKey
  cases hany : d.any (fun p => p.1 == k) with
  | true => exact keysDD_map d k v hd hv
  | false => exact keysDD_append d k v hd hv hany

/-- With distinct keys, looking up a member pair's key finds that pair. -/
theorem lookup_of_keysDistinct :
    ∀ (f : List (String × JVal)), keysDistinctDeep f = true →
      ∀ p ∈ f, f.lookup p.1 = some p.2 := by
  intro f
  induction f with
  | nil => intro _ p hp; cases hp
  | cons q rest ih =>
      intro hd p hp
      obtain ⟨k0, v0⟩ := q
      simp only [keysDistinctDeep, Bool.and_eq_true] at hd
      obtain ⟨⟨hfresh, _⟩, hrest⟩ := hd
      rcases List.mem_cons.mp hp with rfl | hmem
      · simp [List.lookup]
      · have hne : (p.1 == k0) = false := by
          rw [beq_eq_false_iff_ne]
          intro he
          have hanyt : rest.any (fun q => q.1 == k0) = true :=
            List.any_eq_true.mpr ⟨p, hmem,
              show (p.1 == k0) = true by rw [he]; exact beq_self_eq_true k0⟩
          rw [Bool.not_eq_true', hanyt] at hfresh
          cases hfresh
        simp only [List.lookup, hne]
        exact ih hrest p hmem

/-- The values of a well-formed dict are themselves well-formed. -/
theorem values_nodeep :
    ∀ (f : List (String × JVal)), keysDistinctDeep f = true →
      ∀ p ∈ f, nodeep p.2 = true := by
  intro f
  induction f with
  | nil => intro _ p hp; cases hp
  | cons q rest ih =>
      intro hd p hp
      obtain ⟨k0, v0⟩ := q
      simp only [keysDistinctDeep, Bool.and_eq_true] at hd
      obtain ⟨⟨_, hv0⟩, hrest⟩ := hd
      rcases List.mem_cons.mp hp with rfl | hmem
      · exact hv0
      · exact ih hrest p hmem

/- Python `==` is reflexive on deeply well-formed values (dict reflexivity
needs distinct keys, since the key-by-key comparison looks keys up from the
front). -/
mutual

theorem pyEq_refl : ∀ (v : JVal), nodeep v = true → pyEq v v = true
  | JVal.null, _ => rfl
  | JVal.bool b, _ => by simp [pyEq]
  | JVal.num q, _ => by simp [pyEq, PyNum.numEq]
  | JVal.str s, _ => by simp [pyEq]
  | JVal.arr l, hv => by
      simp only [pyEq]
      exact pyEqList_refl l (by simpa [nodeep] using hv)
  | JVal.obj f, hv => by
      have hdd : keysDistinctDeep f = true := by simpa [nodeep] using hv
      simp only [pyEq, Bool.and_eq_true]
      exact ⟨by simp, pyEqSub_self f f (lookup_of_keysDistinct f hdd) (values_nodeep f hdd)⟩

theorem pyEqList_refl : ∀ (l : List JVal), allDeep l = true → pyEqList l l = true
  | [], _ => rfl
  | x :: xs, hd => by
      have hx : nodeep x = true ∧ allDeep xs = true := by
        simpa [allDeep, Bool.and_eq_true] using hd
      simp only [pyEqList, Bool.and_eq_true]
      exact ⟨pyEq_refl x hx.1, pyEqList_refl xs hx.2⟩

theorem pyEqSub_self : ∀ (l f : List (String × JVal)),
    (∀ p ∈ l, f.lookup p.1 = some p.2) → (∀ p ∈ l, nodeep p.2 = true) →
    pyEqSub l f = true
  | [], _, _, _ => rfl
  | (k, v) :: rest, f, hlk, hnd => by
      simp only [pyEqSub, Bool.and_eq_true]
      constructor
      · rw [hlk (k, v) (List.mem_cons_self _ _)]
        exact pyEq_refl v (hnd (k, v) (List.mem_cons_self _ _))
      · exact pyEqSub_self rest f (fun p hp => hlk p (List.mem_cons_of_mem _ hp))
          (fun p hp => hnd p (List.mem_cons_of_mem _ hp))

end

/-- A key-by-key dict comparison constrains every key of the left dict. -/
theorem pyEqSub_forall :
    ∀ (a b : List (String × JVal)), pyEqSub a b = true →
      ∀ p ∈ a, (match b.lookup p.1 with
                | some w => pyEq p.2 w
                | none => false) = true := by
  intro a
  induction a with
  | nil => intro b _ p hp; cases hp
  | cons q rest ih =>
      intro b hsub p hp
      rw [show pyEqSub (q :: rest) b =
            ((match b.lookup q.1 with
              | some w => pyEq q.2 w
              | none => false) && pyEqSub rest b) from rfl,
        Bool.and_eq_true] at hsub
      rcases List.mem_cons.mp hp with rfl | hmem
      · exact hsub.1
      · exact ih b hsub.2 p hmem

/-- `findIdx` on a decomposition whose prefix all fails the predicate and
whose middle element satisfies it. -/
theorem findIdx_append_cons (p : Dict → Bool) :
    ∀ (A : List Dict) (b : Dict) (rest : List Dict),
      (∀ x ∈ A, p x = false) → p b = true →
      List.findIdx p (A ++ b :: rest) = A.length := by
  intro A
  induction A with
  | nil =>
      intro b rest _ hb
      simp [List.findIdx_cons, hb]
  | cons a A' ih =>
      intro b rest hA hb
      have ha : p a = false := hA a (List.mem_cons_self _ _)
      simp only [List.cons_append, List.findIdx_cons, ha, cond_false, List.length_cons]
      rw [ih b rest (fun x hx => hA x (List.mem_cons_of_mem _ hx)) hb]

/-- `mapWithIdx` preserves length. -/
theorem mapWithIdx_length (f : Nat → Dict → Dict) :
    ∀ (i : Nat) (l : List Dict), (mapWithIdx f i l).length = l.length := by
  intro i l
  induction l generalizing i with
  | nil => rfl
  | cons a rest ih => simp [mapWithIdx, ih]

/-- `mapWithIdx` distributes over append, shifting the start index. -/
theorem mapWithIdx_append (f : Nat → Dict → Dict) :
    ∀ (l1 l2 : List Dict) (i : Nat),
      mapWithIdx f i (l1 ++ l2) = mapWithIdx f i l1 ++ mapWithIdx f (i + l1.length) l2 := by
  intro l1
  induction l1 with
  | nil => intro l2 i; simp [mapWithIdx]
  | cons a rest ih =>
      intro l2 i
      simp only [List.cons_append, mapWithIdx, List.length_cons, List.append_eq]
      rw [ih l2 (i + 1)]
      rw [show i + (rest.length + 1) = i + 1 + rest.length by omega]

/-- Every element of `mapWithIdx` comes from a position of the source
list. -/
theorem mapWithIdx_mem (f : Nat → Dict → Dict) :
    ∀ (l : List Dict) (i : Nat) (x : Dict), x ∈ mapWithIdx f i l →
      ∃ j rj, l.get? j = some rj ∧ x = f (i + j) rj := by
  intro l
  induction l with
  | nil => intro i x hx; cases hx
  | cons a rest ih =>
      intro i x hx
      rcases List.mem_cons.mp hx with rfl | hmem
      · exact ⟨0, a, rfl, by rw [Nat.add_zero]⟩
      · obtain ⟨j, rj, hj, hx⟩ := ih (i + 1) x hmem
        refine ⟨j + 1, rj, by simpa using hj, ?_⟩
        rw [hx]
        congr 1
        omega

/-- Setting the element right after a prefix replaces the middle element. -/
theorem set_append_mid :
    ∀ (A : List Dict) (b x : Dict) (C : List Dict),
      (A ++ b :: C).set A.length x = A ++ x :: C := by
  intro A
  induction A with
  | nil => intro b x C; rfl
  | cons a A' ih =>
      intro b x C
      simp only [List.cons_append, List.length_cons, List.set_cons_succ, ih]

/-- Reading the element right after a prefix. -/
theorem get_append_mid :
    ∀ (A : List Dict) (b : Dict) (C : List Dict), (A ++ b :: C).get? A.length = some b := by
  intro A
  induction A with
  | nil => intro b C; rfl
  | cons a A' ih =>
      intro b C
      simpa using ih b C

/-- `rowStage` only touches the `data_source` and `company_id` keys. -/
theorem rowStage_lookup_ne (h : String → Int) (fn : String) (row : Dict) (k : String)
    (h1 : k ≠ "data_source") (h2 : k ≠ "company_id") :
    (rowStage h fn row).lookup k = row.lookup k := by
  unfold rowStage
  cases hcid : (setKey row "data_source" (JVal.str fn)).lookup "company_id" with
  | none => exact lookup_setKey_ne row "data_source" k (JVal.str fn) h1
  | some v =>
      cases hpv : pyTruthy v with
      | true =>
          simp only [hpv, if_true]
          exact lookup_setKey_ne row "data_source" k (JVal.str fn) h1
      | false =>
          simp only [hpv, Bool.false_eq_true, if_false]
          rw [lookup_setKey_ne _ "company_id" k _ h2]
          exact lookup_setKey_ne row "data_source" k (JVal.str fn) h1

/-- `rowStage` preserves distinct-keys well-formedness. -/
theorem rowStage_keysDD (h : String → Int) (fn : String) (row : Dict)
    (hd : keysDistinctDeep row = true) :
    keysDistinctDeep (rowStage h fn row) = true := by
  have h1 : keysDistinctDeep (setKey row "data_source" (JVal.str fn)) = true :=
    setKey_keysDD row "data_source" (JVal.str fn) hd rfl
  unfold rowStage
  cases hcid : (setKey row "data_source" (JVal.str fn)).lookup "company_id" with
  | none => exact h1
  | some v =>
      cases hpv : pyTruthy v with
      | true => simpa only [hpv, if_true] using h1
      | false =>
          simp only [hpv, Bool.false_eq_true, if_false]
          exact setKey_keysDD _ "company_id" _ h1 rfl

/-- `finalRow` only touches `data_source`, `company_id` and the table's id
column. -/
theorem finalRow_lookup_ne (h : String → Int) (fn t : String) (j : Nat) (row : Dict)
    (k : String) (h1 : k ≠ "data_source") (h2 : k ≠ "company_id")
    (h3 : ∀ p ∈ id_fields, k ≠ p.2) :
    (finalRow h fn t j row).lookup k = row.lookup k := by
  unfold finalRow
  cases hid : id_fields.lookup t with
  | none => exact rowStage_lookup_ne h fn row k h1 h2
  | some idf =>
      have hkidf : k ≠ idf := h3 (t, idf) (lookup_mem id_fields t idf hid)
      cases hsome : ((rowStage h fn row).lookup idf).isSome with
      | true =>
          simp only [hsome, if_true]
          rw [lookup_setKey_ne _ idf k _ hkidf]
          exact rowStage_lookup_ne h fn row k h1 h2
      | false =>
          simp only [hsome, Bool.false_eq_true, if_false]
          exact rowStage_lookup_ne h fn row k h1 h2

/-- Loop invariant of the row-annotation loop: when the rows are pairwise
distinguished (at a key the loop never touches) and have well-formed dicts,
the `rows.index(row)` call always resolves to the row's own position, so the
processed prefix is exactly `finalRow` applied positionally. -/
theorem annotate_inv (h : String → Int) (fn t dk : String)
    (hdk1 : dk ≠ "data_source") (hdk2 : dk ≠ "company_id")
    (hdk3 : ∀ p ∈ id_fields, dk ≠ p.2) (rows : List Dict)
    (hnd : ∀ r ∈ rows, keysDistinctDeep r = true)
    (hshape : ∀ r ∈ rows, ∃ s, r.lookup dk = some (JVal.str s))
    (hdist : ∀ i j ri rj, rows.get? i = some ri → rows.get? j = some rj → i ≠ j →
      ri.lookup dk ≠ rj.lookup dk) :
    ∀ m, m ≤ rows.length →
      (List.range m).foldl (annotateStep h fn t) rows =
        mapWithIdx (finalRow h fn t) 0 (rows.take m) ++ rows.drop m := by
  intro m
  induction m with
  | zero => intro _; simp [mapWithIdx]
  | succ m ih =>
      intro hm1
      have hm : m < rows.length := hm1
      rw [List.range_succ, List.foldl_append, ih (le_of_lt hm)]
      simp only [List.foldl_cons, List.foldl_nil]
      set A := mapWithIdx (finalRow h fn t) 0 (rows.take m) with hAdef
      have hlenA : A.length = m := by
        rw [hAdef, mapWithIdx_length, List.length_take]
        omega
      have hdrop : rows.drop m = rows[m] :: rows.drop (m + 1) := List.drop_eq_getElem_cons hm
      have hgetm : rows.get? m = some rows[m] := by
        simp [List.get?_eq_getElem?, List.getElem?_eq_getElem hm]
      rw [hdrop]
      have hget : (A ++ rows[m] :: rows.drop (m + 1)).get? A.length = some rows[m] :=
        get_append_mid A _ _
      rw [hlenA] at hget
      have hmem_m : rows[m] ∈ rows := List.getElem_mem hm
      have hnd_m := hnd rows[m] hmem_m
      obtain ⟨sm, hsm⟩ := hshape rows[m] hmem_m
      have hrow2dk : (rowStage h fn rows[m]).lookup dk = some (JVal.str sm) := by
        rw [rowStage_lookup_ne h fn _ dk hdk1 hdk2]
        exact hsm
      have hset : (A ++ rows[m] :: rows.drop (m + 1)).set m (rowStage h fn rows[m]) =
          A ++ rowStage h fn rows[m] :: rows.drop (m + 1) := by
        have hsm2 := set_append_mid A (rows[m]) (rowStage h fn rows[m]) (rows.drop (m + 1))
        rw [hlenA] at hsm2
        exact hsm2
      have htake : rows.take (m + 1) = rows.take m ++ [rows[m]] := by
        rw [List.take_succ]
        simp [List.getElem?_eq_getElem hm]
      have hmapA : mapWithIdx (finalRow h fn t) 0 (rows.take (m + 1)) =
          A ++ [finalRow h fn t m rows[m]] := by
        rw [htake, mapWithIdx_append, ← hAdef]
        congr 1
        rw [List.length_take]
        have hminm : min m rows.length = m := by omega
        rw [hminm]
        simp [mapWithIdx, Nat.zero_add]
      rw [hmapA, List.append_assoc, List.singleton_append]
      have hprefFalse : ∀ x ∈ A,
          pyEq (JVal.obj x) (JVal.obj (rowStage h fn rows[m])) = false := by
        intro x hx
        obtain ⟨j, rj, hj, hxe⟩ := mapWithIdx_mem (finalRow h fn t) (rows.take m) 0 x hx
        have hjlen : j < (rows.take m).length := (List.get?_eq_some.mp hj).1
        have hjm : j < m := by
          rw [List.length_take] at hjlen
          omega
        have hrj : rows.get? j = some rj := by
          rw [← hj]
          simp [List.get?_eq_getElem?, List.getElem?_take, hjm]
        obtain ⟨sj, hsj⟩ := hshape rj (List.get?_mem hrj)
        have hxdk : x.lookup dk = some (JVal.str sj) := by
          rw [hxe, Nat.zero_add, finalRow_lookup_ne h fn t j rj dk hdk1 hdk2 hdk3]
          exact hsj
        have hneq : sj ≠ sm := by
          have hd := hdist j m rj rows[m] hrj hgetm (by omega)
          intro he
          apply hd
          rw [hsj, hsm, he]
        cases hp : pyEq (JVal.obj x) (JVal.obj (rowStage h fn rows[m])) with
        | false => rfl
        | true =>
            exfalso
            have hsub : pyEqSub x (rowStage h fn rows[m]) = true := by
              have hp' := hp
              simp only [pyEq, Bool.and_eq_true] at hp'
              exact hp'.2
            have hmx : (dk, JVal.str sj) ∈ x := lookup_mem x dk _ hxdk
            have hmatch := pyEqSub_forall x (rowStage h fn rows[m]) hsub _ hmx
            rw [hrow2dk] at hmatch
            exact hneq (eq_of_beq (by simpa [pyEq] using hmatch))
      have hpredSelf : pyEq (JVal.obj (rowStage h fn rows[m]))
          (JVal.obj (rowStage h fn rows[m])) = true := by
        apply pyEq_refl
        show nodeep (JVal.obj (rowStage h fn rows[m])) = true
        simpa [nodeep] using rowStage_keysDD h fn rows[m] hnd_m
      have hidx : indexOfRow (A ++ rowStage h fn rows[m] :: rows.drop (m + 1))
          (rowStage h fn rows[m]) = m := by
        unfold indexOfRow
        have hfi := findIdx_append_cons
          (fun x => pyEq (JVal.obj x) (JVal.obj (rowStage h fn rows[m])))
          A (rowStage h fn rows[m]) (rows.drop (m + 1)) hprefFalse hpredSelf
        rw [hlenA] at hfi
        exact hfi
      simp only [annotateStep, hget, annotateWithStage, finalRow, hset, hidx]
      split
      · rfl
      · rename_i idf heq
        split_ifs with hc
        · have hsm3 := set_append_mid A (rowStage h fn rows[m])
            (setKey (rowStage h fn rows[m]) idf (JVal.num (PyNum.ofInt
              ((h (fn ++ "_" ++ t ++ "_" ++ Nat.repr m)) % 10000))))
            (rows.drop (m + 1))
          rw [hlenA] at hsm3
          exact hsm3
        · rfl

/-- Claim C9 as amended.  First part: when the rows of a document are
pairwise distinguished by some field the loop never touches (and their dicts
are well-formed), every annotated row equals `finalRow` at its own position —
`data_source` is set, a `company_id` key present with a falsy value becomes
`hash(filename) % 10000` (the same for every such row), and for tables in
the row-id mapping a row carrying the id key gets
`hash(filename_table_position) % 10000`.  Second part: a row lacking the
`company_id` key entirely is left without a company identifier. -/
theorem claim_C9 :
    (∀ (h : String → Int) (fn t dk : String) (rows : List Dict),
        dk ≠ "data_source" → dk ≠ "company_id" → (∀ p ∈ id_fields, dk ≠ p.2) →
        (∀ r ∈ rows, keysDistinctDeep r = true) →
        (∀ r ∈ rows, ∃ s, r.lookup dk = some (JVal.str s)) →
        (∀ i j ri rj, rows.get? i = some ri → rows.get? j = some rj → i ≠ j →
          ri.lookup dk ≠ rj.lookup dk) →
        annotate_rows h fn t rows = mapWithIdx (finalRow h fn t) 0 rows) ∧
    (∀ (h : String → Int) (fn t : String) (j : Nat) (row : Dict),
        row.any (fun p => p.1 == "company_id") = false →
        (finalRow h fn t j row).lookup "company_id" = none) := by
  constructor
  · intro h fn t dk rows hdk1 hdk2 hdk3 hnd hshape hdist
    unfold annotate_rows
    have hinv := annotate_inv h fn t dk hdk1 hdk2 hdk3 rows hnd hshape hdist
      rows.length (le_refl _)
    rw [hinv, List.take_length, List.drop_length, List.append_nil]
  · intro h fn t j row hany
    have hrownone : row.lookup "company_id" = none :=
      lookup_none_of_any_false row _ hany
    have h1 : (setKey row "data_source" (JVal.str fn)).lookup "company_id" =
        row.lookup "company_id" :=
      lookup_setKey_ne row "data_source" "company_id" (JVal.str fn) (by decide)
    have hrs : (rowStage h fn row).lookup "company_id" = none := by
      simp only [rowStage, h1, hrownone]
    unfold finalRow
    split
    · exact hrs
    · rename_i idf heq
      have hne : ("company_id" : String) ≠ idf := by
        have hmem := lookup_mem id_fields t idf heq
        have hval : ∀ p ∈ id_fields, p.2 ≠ "company_id" := by decide
        exact fun he => (hval (t, idf) hmem) he.symm
      split_ifs with hc
      · rw [lookup_setKey_ne _ idf "company_id" _ hne]
        exact hrs
      · exact hrs

/-- Witness for claim C9 at two concrete rows distinguished by their fiscal
period, plus a row without a `company_id` key. -/
theorem claim_C9_witness :
    annotate_rows (fun s => (s.length : Int)) "r.pdf" "financial_results"
      [[("fiscal_period", JVal.str "FY23"), ("company_id", JVal.null),
        ("financial_id", JVal.null)],
       [("fiscal_period", JVal.str "FY24"), ("company_id", JVal.num ⟨7, 1⟩),
        ("financial_id", JVal.null)]] =
      mapWithIdx (finalRow (fun s => (s.length : Int)) "r.pdf" "financial_results") 0
        [[("fiscal_period", JVal.str "FY23"), ("company_id", JVal.null),
          ("financial_id", JVal.null)],
         [("fiscal_period", JVal.str "FY24"), ("company_id", JVal.num ⟨7, 1⟩),
          ("financial_id", JVal.null)]] ∧
    (finalRow (fun s => (s.length : Int)) "r.pdf" "financial_results" 0
      [("quarter", JVal.str "Q1")]).lookup "company_id" = none := by
  constructor
  · apply claim_C9.1 (fun s => (s.length : Int)) "r.pdf" "financial_results"
      "fiscal_period"
    · decide
    · decide
    · decide
    · decide
    · intro r hr
      simp only [List.mem_cons, List.not_mem_nil, or_false] at hr
      rcases hr with rfl | rfl
      · exact ⟨"FY23", rfl⟩
      · exact ⟨"FY24", rfl⟩
    · intro i j ri rj hi hj hne
      match i, j with
      | 0, 0 => exact absurd rfl hne
      | 0, 1 =>
          cases hi
          cases hj
          intro he
          rw [show List.lookup "fiscal_period"
              [("fiscal_period", JVal.str "FY23"), ("company_id", JVal.null),
               ("financial_id", JVal.null)] = some (JVal.str "FY23") from rfl,
            show List.lookup "fiscal_period"
              [("fiscal_period", JVal.str "FY24"), ("company_id", JVal.num ⟨7, 1⟩),
               ("financial_id", JVal.null)] = some (JVal.str "FY24") from rfl] at he
          injection he with he1
          injection he1 with he2
          exact absurd he2 (by decide)
      | 1, 0 =>
          cases hi
          cases hj
          intro he
          rw [show List.lookup "fiscal_period"
              [("fiscal_period", JVal.str "FY24"), ("company_id", JVal.num ⟨7, 1⟩),
               ("financial_id", JVal.null)] = some (JVal.str "FY24") from rfl,
            show List.lookup "fiscal_period"
              [("fiscal_period", JVal.str "FY23"), ("company_id", JVal.null),
               ("financial_id", JVal.null)] = some (JVal.str "FY23") from rfl] at he
          injection he with he1
          injection he1 with he2
          exact absurd he2 (by decide)
      | 1, 1 => exact absurd rfl hne
      | 0, j + 2 => exact absurd hj (by simp)
      | 1, j + 2 => exact absurd hj (by simp)
      | i + 2, _ => exact absurd hi (by simp)
  · exact claim_C9.2 (fun s => (s.length : Int)) "r.pdf" "financial_results" 0
      [("quarter", JVal.str "Q1")] rfl

end PdfCsv
